import Mathlib

/-!
Verification of the Bucephalus provider abstraction and streaming
normalization engine.

The definitions below are a shallow embedding of the Go sources:

- `provider` package: canonical model types and the provider registry.
- `openai`, `gemini`, `anthropic` packages: finish-reason translation,
  the streaming state machines (`openaiStream.Next`, `geminiStream.Next`,
  `anthropicStream.Next`) modelled at the level of parsed SSE events,
  and the `makeAllPropertiesRequired` schema transform.

Streams are modelled as explicit state machines: the underlying SSE
reader is abstracted as a list of read results, where each result is
either a parsed vendor event, end of stream (io.EOF; for the OpenAI
reader this also covers the `data: [DONE]` sentinel, which
`streamReader.ReadChunk` converts to io.EOF), or a read or decode
failure.  Go maps are modelled as insertion-ordered association lists;
Go map iteration order is unspecified, which is noted at the few places
where it matters.
-/

namespace Bucephalus

/-- Canonical finish reason constant `provider.FinishReasonStop`. -/
def finishReasonStop : String := "stop"

/-- Canonical finish reason constant `provider.FinishReasonToolCalls`. -/
def finishReasonToolCalls : String := "tool_calls"

/-- Canonical finish reason constant `provider.FinishReasonLength`. -/
def finishReasonLength : String := "length"

/-- Canonical tool call (`provider.ToolCall`).  Zero value: all fields empty. -/
structure ToolCall where
  id : String := ""
  name : String := ""
  arguments : String := ""
deriving Repr, DecidableEq, Inhabited

/-- Token usage (`provider.Usage`).  Go `int` fields are modelled as `Int`. -/
structure Usage where
  promptTokens : Int := 0
  completionTokens : Int := 0
  totalTokens : Int := 0
deriving Repr, DecidableEq, Inhabited

/-- Canonical response (`provider.Response`). -/
structure Response where
  content : String := ""
  toolCalls : List ToolCall := []
  finishReason : String := ""
  usage : Usage := {}
deriving Repr, DecidableEq, Inhabited

/-- Streaming tool-call delta (`provider.ToolCallDelta`). -/
structure ToolCallDelta where
  id : String := ""
  name : String := ""
  argumentsDelta : String := ""
deriving Repr, DecidableEq, Inhabited

/-- Streaming chunk (`provider.StreamChunk`). -/
structure StreamChunk where
  delta : String := ""
  toolCallDelta : Option ToolCallDelta := none
  finishReason : String := ""
deriving Repr, DecidableEq, Inhabited

/-- Outcome of one failed read from an SSE reader: end of stream
(io.EOF) or a transport or decode failure carrying a message. -/
inductive ReadErr where
  | eof
  | fail (msg : String)
deriving Repr, DecidableEq

namespace OpenAI

/-- Translation of `openai.convertFinishReason`: `"tool_calls"` and
`"length"` are recognized, everything else falls to the default case. -/
def convertFinishReason (reason : String) : String :=
  if reason = "tool_calls" then finishReasonToolCalls
  else if reason = "length" then finishReasonLength
  else finishReasonStop

end OpenAI

namespace Gemini

/-- Translation of `gemini.convertFinishReason`: `"STOP"`, `"MAX_TOKENS"`,
`"TOOL_USE"` and `"FUNCTION_CALL"` are recognized, everything else falls
to the default case. -/
def convertFinishReason (reason : String) : String :=
  if reason = "STOP" then finishReasonStop
  else if reason = "MAX_TOKENS" then finishReasonLength
  else if reason = "TOOL_USE" ∨ reason = "FUNCTION_CALL" then finishReasonToolCalls
  else finishReasonStop

end Gemini

namespace Anthropic

/-- Translation of `anthropic.convertStopReason`: `"tool_use"` and
`"max_tokens"` are recognized, everything else falls to the default case. -/
def convertStopReason (reason : String) : String :=
  if reason = "tool_use" then finishReasonToolCalls
  else if reason = "max_tokens" then finishReasonLength
  else finishReasonStop

end Anthropic

/-- Association-list lookup, the model of reading from a Go map:
returns the value stored at the given key, if any. -/
def mapLookup {κ ν : Type} [DecidableEq κ] : List (κ × ν) → κ → Option ν
  | [], _ => none
  | (j, w) :: rest, k => if j = k then some w else mapLookup rest k

/-- Association-list store, the model of a Go map assignment: replaces
the entry at the key when present, appends it otherwise.  A Go map keeps
one entry per key; insertion order is recorded so that the model of map
iteration is deterministic (real Go map iteration order is unspecified). -/
def mapSet {κ ν : Type} [DecidableEq κ] : List (κ × ν) → κ → ν → List (κ × ν)
  | [], k, v => [(k, v)]
  | (j, w) :: rest, k, v =>
      if j = k then (k, v) :: rest else (j, w) :: mapSet rest k v

/-- Size bound used by the termination proofs of the recursive schema
transform below: a value found in an association list is smaller than
the list. -/
theorem mapLookup_sizeOf {κ ν : Type} [DecidableEq κ] [SizeOf κ] [SizeOf ν] :
    ∀ {l : List (κ × ν)} {k : κ} {v : ν}, mapLookup l k = some v → sizeOf v < sizeOf l := by
  intro l
  induction l with
  | nil => intro k v h; simp [mapLookup] at h
  | cons hd tl ih =>
      intro k v h
      obtain ⟨j, w⟩ := hd
      simp only [mapLookup] at h
      split at h
      · cases h
        simp
        omega
      · have := ih h
        simp
        omega

namespace OpenAI

/-- Function-call fragment of one streamed tool-call delta
(`openai.streamFunctionCall`). -/
structure StreamFunctionCall where
  name : String := ""
  arguments : String := ""
deriving Repr, DecidableEq, Inhabited

/-- One streamed tool-call delta (`openai.streamToolCall`). -/
structure StreamToolCall where
  index : Int := 0
  id : String := ""
  function : StreamFunctionCall := {}
deriving Repr, DecidableEq, Inhabited

/-- Delta carried by one streamed choice (`openai.streamDelta`). -/
structure StreamDelta where
  content : String := ""
  toolCalls : List StreamToolCall := []
deriving Repr, DecidableEq, Inhabited

/-- One streamed choice (`openai.streamChoice`); `finish_reason` is a JSON
nullable string, hence an `Option`. -/
structure StreamChoice where
  delta : StreamDelta := {}
  finishReason : Option String := none
deriving Repr, DecidableEq, Inhabited

/-- One parsed SSE chunk (`openai.streamChunk`); usage is present only on
the final chunk when requested. -/
structure VendorChunk where
  choices : List StreamChoice := []
  usage : Option Usage := none
deriving Repr, DecidableEq, Inhabited

/-- State of `openai.openaiStream`: the accumulated response, the sticky
error, the chunk produced by the last successful Next call, the done
flag, and the in-progress tool calls keyed by vendor chunk index
(`map[int]*provider.ToolCall`, modelled as an insertion-ordered
association list). -/
structure StreamState where
  accumulated : Response := {}
  err : Option String := none
  current : Option StreamChunk := none
  done : Bool := false
  toolCalls : List (Int × ToolCall) := []
deriving Repr, DecidableEq, Inhabited

/-- State of `openaiStream` as built by `Provider.CallStream`. -/
def initState : StreamState := {}

/-- Body of the loop over `delta.ToolCalls` in `openaiStream.Next`: fetch
or create the in-progress entry for `tc.Index`, overwrite id and name
when the fragment carries them, append a nonempty argument fragment, and
surface the fragment as the current chunk tool-call delta. -/
def applyToolCallDelta (acc : List (Int × ToolCall) × StreamChunk)
    (tc : StreamToolCall) : List (Int × ToolCall) × StreamChunk :=
  let calls := acc.1
  let cur := acc.2
  let entry0 := (mapLookup calls tc.index).getD {}
  let entry1 := if tc.id ≠ "" then { entry0 with id := tc.id } else entry0
  let entry2 :=
    if tc.function.name ≠ "" then { entry1 with name := tc.function.name } else entry1
  if tc.function.arguments ≠ "" then
    let entry3 := { entry2 with arguments := entry2.arguments ++ tc.function.arguments }
    let d : ToolCallDelta :=
      { id := entry3.id, name := entry3.name, argumentsDelta := tc.function.arguments }
    (mapSet calls tc.index entry3, { cur with toolCallDelta := some d })
  else
    (mapSet calls tc.index entry2, cur)

/-- Processing of one successfully parsed chunk in `openaiStream.Next`:
build a fresh current chunk, fold the first choice (content delta,
tool-call deltas, finish reason), then overwrite usage when present. -/
def stepChunk (s : StreamState) (c : VendorChunk) : StreamState :=
  let cur0 : StreamChunk := {}
  let s1 :=
    match c.choices with
    | [] => { s with current := some cur0 }
    | choice :: _ =>
        let cur1 :=
          if choice.delta.content ≠ "" then { cur0 with delta := choice.delta.content }
          else cur0
        let content1 :=
          if choice.delta.content ≠ "" then s.accumulated.content ++ choice.delta.content
          else s.accumulated.content
        let folded := choice.delta.toolCalls.foldl applyToolCallDelta (s.toolCalls, cur1)
        let cur3 :=
          match choice.finishReason with
          | some r => { folded.2 with finishReason := convertFinishReason r }
          | none => folded.2
        let fin3 :=
          match choice.finishReason with
          | some r => convertFinishReason r
          | none => s.accumulated.finishReason
        { s with current := some cur3,
                 toolCalls := folded.1,
                 accumulated :=
                   { s.accumulated with content := content1, finishReason := fin3 } }
  match c.usage with
  | some u => { s1 with accumulated := { s1.accumulated with usage := u } }
  | none => s1

/-- Final tool-call flush in `openaiStream.Next`: `for _, tc := range
s.toolCalls` appends every in-progress call to the accumulated response.
Go map iteration order is unspecified; the model iterates in insertion
order, which is the order the indices were first observed. -/
def flushToolCalls (s : StreamState) : StreamState :=
  { s with accumulated :=
      { s.accumulated with
          toolCalls := s.accumulated.toolCalls ++ s.toolCalls.map Prod.snd } }

/-- One read-and-fold step of `openaiStream.Next` after the done and err
guard: EOF (the `[DONE]` sentinel included, since `ReadChunk` returns
io.EOF for it) marks the stream done and flushes the in-progress tool
calls; any other read error is recorded; a parsed chunk is folded. -/
def next (s : StreamState) : Except ReadErr VendorChunk → Bool × StreamState
  | .error .eof => (false, { flushToolCalls s with done := true })
  | .error (.fail m) => (false, { s with err := some m })
  | .ok c => (true, stepChunk s c)

/-- Guard of `openaiStream.Next` (`if s.done || s.err != nil`). -/
def halted (s : StreamState) : Bool :=
  s.done || s.err.isSome

/-- Full `openaiStream.Next` against the remaining reader input: when
halted it returns false without consuming a read; otherwise it consumes
exactly one read result. -/
def advance (s : StreamState) (input : List (Except ReadErr VendorChunk)) :
    Bool × StreamState × List (Except ReadErr VendorChunk) :=
  if halted s then (false, s, input)
  else
    match input with
    | [] => (false, s, [])
    | r :: rest => ((next s r).1, (next s r).2, rest)

end OpenAI

/-- Pull loop of a caller over any of the three streams: states of type
`σ`, parsed vendor events of type `ε`, a halted guard, a step function
and a projection to the chunk surfaced by Current.  Shared by the three
stream models. -/
structure StreamModel (σ ε : Type) where
  halted : σ → Bool
  step : σ → Except ReadErr ε → Bool × σ
  cur : σ → StreamChunk

/-- Caller loop `for s.Next() { use s.Current() }` over a finite reader
input: returns the final stream state and the chunks surfaced in
delivery order.  The loop stops at the first Next that returns false. -/
def StreamModel.run {σ ε : Type} (M : StreamModel σ ε) (s : σ) :
    List (Except ReadErr ε) → σ × List StreamChunk
  | [] => (s, [])
  | r :: rest =>
      if M.halted s then (s, [])
      else
        let b := (M.step s r).1
        let s1 := (M.step s r).2
        if b then
          let tail := M.run s1 rest
          (tail.1, M.cur s1 :: tail.2)
        else (s1, [])

/-- Stream model instance for `openaiStream`. -/
def OpenAI.model : StreamModel OpenAI.StreamState OpenAI.VendorChunk where
  halted := OpenAI.halted
  step := OpenAI.next
  cur := fun s => s.current.getD {}

namespace Gemini

/-- Function call carried by one content part (`gemini.functionCall`).
The Go code holds `Args` as a decoded `map[string]any` and re-marshals
it with `json.Marshal` wherever it is used; the model abstracts the
marshalled bytes as the string `argsJSON`. -/
structure FunctionCall where
  name : String := ""
  argsJSON : String := ""
deriving Repr, DecidableEq, Inhabited

/-- One content part (`gemini.part`); the functionResponse field is not
read on the response path and is omitted. -/
structure Part where
  text : String := ""
  functionCall : Option FunctionCall := none
deriving Repr, DecidableEq, Inhabited

/-- Content of a candidate (`gemini.content`); the role field is not read
on the response path and is omitted. -/
structure Content where
  parts : List Part := []
deriving Repr, DecidableEq, Inhabited

/-- One response candidate (`gemini.candidate`). -/
structure Candidate where
  content : Option Content := none
  finishReason : String := ""
deriving Repr, DecidableEq, Inhabited

/-- Token usage metadata (`gemini.usageMetadata`). -/
structure UsageMetadata where
  promptTokenCount : Int := 0
  candidatesTokenCount : Int := 0
  totalTokenCount : Int := 0
deriving Repr, DecidableEq, Inhabited

/-- One parsed SSE chunk (`gemini.streamChunk`). -/
structure VendorChunk where
  candidates : List Candidate := []
  usageMetadata : Option UsageMetadata := none
deriving Repr, DecidableEq, Inhabited

/-- Full response body (`gemini.generateContentResponse`): same shape as
a streaming chunk. -/
def GenerateContentResponse := VendorChunk

/-- State of `gemini.geminiStream`: no in-progress tool-call state, the
vendor sends whole function calls. -/
structure StreamState where
  accumulated : Response := {}
  err : Option String := none
  current : Option StreamChunk := none
  done : Bool := false
deriving Repr, DecidableEq, Inhabited

/-- State of `geminiStream` as built by `Provider.CallStream`. -/
def initState : StreamState := {}

/-- Body of the loop over `candidate.Content.Parts` in
`geminiStream.Next`: a nonempty text part overwrites the current chunk
delta and extends the accumulated content; a function call overwrites
the current chunk tool-call delta and appends a complete tool call, with
the function name doubling as the call id. -/
def stepPart (acc : StreamChunk × Response) (p : Part) : StreamChunk × Response :=
  let cur := acc.1
  let r := acc.2
  let cur1 := if p.text ≠ "" then { cur with delta := p.text } else cur
  let r1 :=
    if p.text ≠ "" then { r with content := r.content ++ p.text } else r
  match p.functionCall with
  | some fc =>
      let d : ToolCallDelta :=
        { id := fc.name, name := fc.name, argumentsDelta := fc.argsJSON }
      let tc : ToolCall := { id := fc.name, name := fc.name, arguments := fc.argsJSON }
      ({ cur1 with toolCallDelta := some d }, { r1 with toolCalls := r1.toolCalls ++ [tc] })
  | none => (cur1, r1)

/-- Processing of one successfully parsed chunk in `geminiStream.Next`:
usage metadata overwrites the accumulated usage; the first candidate
always sets the chunk finish reason (via `convertFinishReason`, which
never returns the empty string) and then folds its parts. -/
def stepChunk (s : StreamState) (c : VendorChunk) : StreamState :=
  let s1 :=
    match c.usageMetadata with
    | some u =>
        { s with accumulated :=
            { s.accumulated with usage :=
                { promptTokens := u.promptTokenCount,
                  completionTokens := u.candidatesTokenCount,
                  totalTokens := u.totalTokenCount } } }
    | none => s
  match c.candidates with
  | [] => { s1 with current := some {} }
  | cand :: _ =>
      let f := convertFinishReason cand.finishReason
      let cur0 : StreamChunk := { finishReason := f }
      let acc0 := { s1.accumulated with finishReason := f }
      match cand.content with
      | none => { s1 with current := some cur0, accumulated := acc0 }
      | some ct =>
          let folded := ct.parts.foldl stepPart (cur0, acc0)
          { s1 with current := some folded.1, accumulated := folded.2 }

/-- One read-and-fold step of `geminiStream.Next` after the done and err
guard: io.EOF only marks the stream done (there is no in-progress state
to flush); any other read error is recorded; a parsed chunk is folded. -/
def next (s : StreamState) : Except ReadErr VendorChunk → Bool × StreamState
  | .error .eof => (false, { s with done := true })
  | .error (.fail m) => (false, { s with err := some m })
  | .ok c => (true, stepChunk s c)

/-- Guard of `geminiStream.Next` (`if s.done || s.err != nil`). -/
def halted (s : StreamState) : Bool :=
  s.done || s.err.isSome

/-- Full `geminiStream.Next` against the remaining reader input. -/
def advance (s : StreamState) (input : List (Except ReadErr VendorChunk)) :
    Bool × StreamState × List (Except ReadErr VendorChunk) :=
  if halted s then (false, s, input)
  else
    match input with
    | [] => (false, s, [])
    | r :: rest => ((next s r).1, (next s r).2, rest)

/-- Translation of `gemini.Provider.convertResponse`: usage, finish
reason of the first candidate, then the fold over its parts that
concatenates text and appends whole tool calls with id equal to name. -/
def convertResponse (resp : VendorChunk) : Response :=
  let result : Response :=
    match resp.usageMetadata with
    | some u =>
        { usage :=
            { promptTokens := u.promptTokenCount,
              completionTokens := u.candidatesTokenCount,
              totalTokens := u.totalTokenCount } }
    | none => {}
  match resp.candidates with
  | [] => result
  | cand :: _ =>
      let result1 := { result with finishReason := convertFinishReason cand.finishReason }
      match cand.content with
      | none => result1
      | some ct =>
          ct.parts.foldl (fun r p =>
            let r1 :=
              if p.text ≠ "" then { r with content := r.content ++ p.text } else r
            match p.functionCall with
            | some fc =>
                let tc : ToolCall :=
                  { id := fc.name, name := fc.name, arguments := fc.argsJSON }
                { r1 with toolCalls := r1.toolCalls ++ [tc] }
            | none => r1) result1

end Gemini

/-- Stream model instance for `geminiStream`. -/
def Gemini.model : StreamModel Gemini.StreamState Gemini.VendorChunk where
  halted := Gemini.halted
  step := Gemini.next
  cur := fun s => s.current.getD {}

namespace Anthropic

/-- Delta payload of a streamed event (`anthropic.delta`); the
`partial_json` field is modelled as `argFragment`. -/
structure Delta where
  type : String := ""
  text : String := ""
  argFragment : String := ""
  stopReason : String := ""
deriving Repr, DecidableEq, Inhabited

/-- Content block opening payload (`anthropic.contentBlock`); the text
and input fields are not read by the stream and are omitted. -/
structure ContentBlock where
  type : String := ""
  id : String := ""
  name : String := ""
deriving Repr, DecidableEq, Inhabited

/-- Usage numbers of the message_start payload (`anthropic.messagesUsage`). -/
structure MsgUsage where
  inputTokens : Int := 0
  outputTokens : Int := 0
deriving Repr, DecidableEq, Inhabited

/-- Payload of a message_start event: only the usage field is read. -/
structure MsgStart where
  usage : MsgUsage := {}
deriving Repr, DecidableEq, Inhabited

/-- Usage payload of a message_delta event (`anthropic.deltaUsage`). -/
structure DeltaUsage where
  outputTokens : Int := 0
deriving Repr, DecidableEq, Inhabited

/-- One parsed typed SSE event (`anthropic.streamEvent`). -/
structure Event where
  type : String := ""
  delta : Option Delta := none
  message : Option MsgStart := none
  contentBlock : Option ContentBlock := none
  usage : Option DeltaUsage := none
deriving Repr, DecidableEq, Inhabited

/-- State of `anthropic.anthropicStream`: the single in-progress tool-use
block is tracked by three fields. -/
structure StreamState where
  accumulated : Response := {}
  err : Option String := none
  current : Option StreamChunk := none
  done : Bool := false
  currentToolID : String := ""
  currentToolName : String := ""
  currentToolArgs : String := ""
deriving Repr, DecidableEq, Inhabited

/-- State of `anthropicStream` as built by `Provider.CallStream`. -/
def initState : StreamState := {}

/-- Processing of one successfully parsed event in
`anthropicStream.Next`: a fresh current chunk, then the switch on the
event type.  Returns the Next boolean together with the new state;
message_stop returns false with done set and nothing flushed. -/
def stepEvent (s : StreamState) (e : Event) : Bool × StreamState :=
  let s0 := { s with current := some ({} : StreamChunk) }
  if e.type = "content_block_start" then
    match e.contentBlock with
    | some cb =>
        if cb.type = "tool_use" then
          (true, { s0 with currentToolID := cb.id, currentToolName := cb.name,
                           currentToolArgs := "" })
        else (true, s0)
    | none => (true, s0)
  else if e.type = "content_block_delta" then
    match e.delta with
    | some d =>
        let cur1 : StreamChunk :=
          if d.text ≠ "" then { delta := d.text } else {}
        let content1 :=
          if d.text ≠ "" then s.accumulated.content ++ d.text
          else s.accumulated.content
        if d.argFragment ≠ "" then
          let frag : ToolCallDelta :=
            { id := s.currentToolID, name := s.currentToolName,
              argumentsDelta := d.argFragment }
          (true, { s with
              current := some { cur1 with toolCallDelta := some frag },
              accumulated := { s.accumulated with content := content1 },
              currentToolArgs := s.currentToolArgs ++ d.argFragment })
        else
          (true, { s with current := some cur1,
                          accumulated := { s.accumulated with content := content1 } })
    | none => (true, s0)
  else if e.type = "content_block_stop" then
    if s.currentToolID ≠ "" then
      let tc : ToolCall :=
        { id := s.currentToolID, name := s.currentToolName,
          arguments := s.currentToolArgs }
      (true, { s0 with
          accumulated := { s0.accumulated with toolCalls := s0.accumulated.toolCalls ++ [tc] },
          currentToolID := "", currentToolName := "", currentToolArgs := "" })
    else (true, s0)
  else if e.type = "message_delta" then
    let s1 :=
      match e.delta with
      | some d =>
          if d.stopReason ≠ "" then
            let f := convertStopReason d.stopReason
            { s0 with
                current := some ({ finishReason := f } : StreamChunk),
                accumulated := { s0.accumulated with finishReason := f } }
          else s0
      | none => s0
    match e.usage with
    | some u =>
        (true, { s1 with accumulated :=
            { s1.accumulated with usage :=
                { s1.accumulated.usage with
                    completionTokens := u.outputTokens,
                    totalTokens := s1.accumulated.usage.promptTokens + u.outputTokens } } })
    | none => (true, s1)
  else if e.type = "message_start" then
    match e.message with
    | some m =>
        (true, { s0 with accumulated :=
            { s0.accumulated with usage :=
                { s0.accumulated.usage with promptTokens := m.usage.inputTokens } } })
    | none => (true, s0)
  else if e.type = "message_stop" then
    (false, { s0 with done := true })
  else
    (true, s0)

/-- One read-and-fold step of `anthropicStream.Next` after the done and
err guard: io.EOF only marks the stream done (a still-open tool-use
block is not flushed); any other read error is recorded; a parsed event
goes through the type switch. -/
def next (s : StreamState) : Except ReadErr Event → Bool × StreamState
  | .error .eof => (false, { s with done := true })
  | .error (.fail m) => (false, { s with err := some m })
  | .ok e => stepEvent s e

/-- Guard of `anthropicStream.Next` (`if s.done || s.err != nil`). -/
def halted (s : StreamState) : Bool :=
  s.done || s.err.isSome

/-- Full `anthropicStream.Next` against the remaining reader input. -/
def advance (s : StreamState) (input : List (Except ReadErr Event)) :
    Bool × StreamState × List (Except ReadErr Event) :=
  if halted s then (false, s, input)
  else
    match input with
    | [] => (false, s, [])
    | r :: rest => ((next s r).1, (next s r).2, rest)

/-- Event opening a tool_use content block, as sent by the vendor before
the argument fragments of that call. -/
def startToolEvent (id name : String) : Event :=
  { type := "content_block_start",
    contentBlock := some { type := "tool_use", id := id, name := name } }

/-- Event carrying one partial_json argument fragment. -/
def fragmentEvent (frag : String) : Event :=
  { type := "content_block_delta", delta := some { type := "input_json_delta", argFragment := frag } }

/-- Event closing the current content block. -/
def stopBlockEvent : Event :=
  { type := "content_block_stop" }

/-- Terminal message_stop event. -/
def messageStopEvent : Event :=
  { type := "message_stop" }

end Anthropic

/-- Stream model instance for `anthropicStream`. -/
def Anthropic.model : StreamModel Anthropic.StreamState Anthropic.Event where
  halted := Anthropic.halted
  step := Anthropic.next
  cur := fun s => s.current.getD {}

namespace Schema

/-- JSON values as decoded by `encoding/json` into `map[string]any`:
objects are association lists (one entry per key, insertion ordered,
standing for the unordered Go map).  Numbers are abstracted as `Int`;
no claim below inspects a number. -/
inductive Json where
  | null : Json
  | bool (b : Bool) : Json
  | num (n : Int) : Json
  | str (s : String) : Json
  | arr (elems : List Json) : Json
  | obj (fields : List (String × Json)) : Json
deriving Inhabited

/-- Required array built from the keys of a properties object
(`for key := range props`); Go gathers keys in unspecified map order,
the model uses entry order. -/
def keysArr (props : List (String × Json)) : Json :=
  .arr (props.map fun kv => .str kv.1)

/-- Truth of the Go comparison `m["type"] == "object"` on a decoded map:
the entry exists, is a string, and equals `"object"`. -/
def isTypeObject (fs : List (String × Json)) : Bool :=
  match mapLookup fs "type" with
  | some (.str s) => s == "object"
  | _ => false

mutual

/-- Translation of `openai.makeRequiredRecursive`: when the schema map
has a `properties` object, overwrite `required` with the full key list
and rewrite every property value through `transformProp` (the Go loop
mutates the nested maps in place; the model rebuilds them). -/
def makeRequiredRecursive (j : Json) : Json :=
  match j with
  | .obj fields =>
      match h : mapLookup fields "properties" with
      | some (.obj props) =>
          .obj (mapSet (mapSet fields "required" (keysArr props))
                  "properties" (.obj (transformProps props)))
      | _ => .obj fields
  | _ => j
termination_by (sizeOf j, 0)
decreasing_by
  all_goals
    (simp_wf
     have := mapLookup_sizeOf h
     simp at this
     apply Prod.Lex.left
     omega)

/-- Loop `for _, val := range props` of `makeRequiredRecursive`. -/
def transformProps (props : List (String × Json)) : List (String × Json) :=
  match props with
  | [] => []
  | (k, v) :: rest => (k, transformProp v) :: transformProps rest
termination_by (sizeOf props, 0)
decreasing_by
  all_goals
    (simp_wf
     apply Prod.Lex.left
     omega)

/-- Body of the property loop in `makeRequiredRecursive`: recurse into a
property map whose `type` is `"object"`, then into its `items` map when
that has `type` `"object"`.  The recursion into the property map never
touches its `items` entry, so looking `items` up in the original fields
matches the in-place Go mutation. -/
def transformProp (p : Json) : Json :=
  match p with
  | .obj pf =>
      let q := if isTypeObject pf then makeRequiredRecursive (.obj pf) else .obj pf
      match h : mapLookup pf "items" with
      | some (.obj itf) =>
          if isTypeObject itf then
            match q with
            | .obj qf => .obj (mapSet qf "items" (makeRequiredRecursive (.obj itf)))
            | _ => q
          else q
      | _ => q
  | _ => p
termination_by (sizeOf p, 1)
decreasing_by
  all_goals simp_wf
  all_goals
    (first
      | (apply Prod.Lex.right
         omega)
      | (have hsz := mapLookup_sizeOf h
         simp at hsz
         apply Prod.Lex.left
         omega))

end

/-- Translation of `openai.makeAllPropertiesRequired` at the level of
decoded JSON: a top-level object goes through `makeRequiredRecursive`;
any other JSON value does not decode into `map[string]any`, so the
function returns its input unchanged (the `json.Unmarshal` failure
branch). -/
def makeAllPropertiesRequired (j : Json) : Json :=
  match j with
  | .obj fields => makeRequiredRecursive (.obj fields)
  | _ => j

/-- Truth of: the JSON list is exactly the given strings, in order. -/
def strListEq : List Json → List String → Bool
  | [], [] => true
  | .str s :: xs, k :: ks => s == k && strListEq xs ks
  | _, _ => false

/-- Truth of: the JSON value is an array of exactly the given strings,
in order. -/
def strArrEqList : Json → List String → Bool
  | .arr xs, ks => strListEq xs ks
  | _, _ => false

mutual

/-- Specification checker for C5: at an object with a `properties`
object, the `required` array holds exactly the property key list, and
the check recurses into every property of type `"object"` and every
object-typed `items` of a property, mirroring the descent of
`makeRequiredRecursive`. -/
def reqOK (j : Json) : Bool :=
  match j with
  | .obj fields =>
      match h : mapLookup fields "properties" with
      | some (.obj props) =>
          (match mapLookup fields "required" with
           | some r => strArrEqList r (props.map Prod.fst)
           | none => false)
          && propsOK props
      | _ => true
  | _ => true
termination_by (sizeOf j, 0)
decreasing_by
  all_goals
    (simp_wf
     have := mapLookup_sizeOf h
     simp at this
     apply Prod.Lex.left
     omega)

/-- Conjunction of `propOK` over the values of a properties object. -/
def propsOK (props : List (String × Json)) : Bool :=
  match props with
  | [] => true
  | (_, v) :: rest => propOK v && propsOK rest
termination_by (sizeOf props, 0)
decreasing_by
  all_goals
    (simp_wf
     apply Prod.Lex.left
     omega)

/-- Per-property check of `reqOK`: descend when the property has type
`"object"`, and into its `items` when that has type `"object"`. -/
def propOK (p : Json) : Bool :=
  match p with
  | .obj pf =>
      (if isTypeObject pf then reqOK (.obj pf) else true)
      && (match h : mapLookup pf "items" with
          | some (.obj itf) => if isTypeObject itf then reqOK (.obj itf) else true
          | _ => true)
  | _ => true
termination_by (sizeOf p, 1)
decreasing_by
  all_goals simp_wf
  all_goals
    (first
      | (apply Prod.Lex.right
         omega)
      | (have hsz := mapLookup_sizeOf h
         simp at hsz
         apply Prod.Lex.left
         omega))

end

end Schema

namespace Registry

/-- Translation of `provider.Register`: a Go map assignment, so the most
recent registration for a name wins.  Factories are abstracted over an
arbitrary type `α` standing for `func() (Provider, error)`. -/
def register {α : Type} (reg : List (String × α)) (name : String) (f : α) :
    List (String × α) :=
  mapSet reg name f

/-- Translation of `provider.Available`: the registered names, in model
order (Go iterates the map in unspecified order). -/
def available {α : Type} (reg : List (String × α)) : List String :=
  reg.map Prod.fst

/-- Translation of `provider.IsRegistered`. -/
def isRegistered {α : Type} (reg : List (String × α)) (name : String) : Bool :=
  (mapLookup reg name).isSome

/-- Space-separated rendering of a string slice, the shape `fmt`
produces for the `%v` verb on `[]string` (inside brackets). -/
def joinSpace : List String → String
  | [] => ""
  | [s] => s
  | s :: rest => s ++ " " ++ joinSpace rest

/-- Error text of `provider.Get` for an unknown name:
`fmt.Errorf("unknown provider: %q (available: %v)", name, Available())`.
The `%q` verb is modelled as plain double quoting (Go escaping of
special characters inside the name is abstracted away). -/
def unknownProviderError (name : String) (names : List String) : String :=
  "unknown provider: \"" ++ name ++ "\" (available: [" ++ joinSpace names ++ "])"

/-- Translation of `provider.Get`: look the factory up and return it for
invocation, or fail with the enumerating error text. -/
def get {α : Type} (reg : List (String × α)) (name : String) : Except String α :=
  match mapLookup reg name with
  | some f => .ok f
  | none => .error (unknownProviderError name (available reg))

end Registry

namespace OpenAI

/-- Fold of `openaiStream.Next` over a list of successfully parsed
chunks (no read failure and no terminal signal among them). -/
def foldChunks (s : StreamState) (cs : List VendorChunk) : StreamState :=
  cs.foldl stepChunk s

/-- Argument fragments delivered for tool-call index `i`, in delivery
order: the fragments carried by the first choice of each chunk, the only
choice `openaiStream.Next` reads. -/
def fragmentsFor (i : Int) (cs : List VendorChunk) : List String :=
  (cs.map fun c =>
    match c.choices with
    | [] => []
    | choice :: _ =>
        (choice.delta.toolCalls.filter fun tc => tc.index == i).map
          fun tc => tc.function.arguments).flatten

/-- Truth of: some processed chunk carries a tool-call delta with index
`i` in its first choice (the condition under which `openaiStream.Next`
creates the in-progress entry for `i`). -/
def mentionsIdx (i : Int) (cs : List VendorChunk) : Bool :=
  cs.any fun c =>
    match c.choices with
    | [] => false
    | choice :: _ => choice.delta.toolCalls.any fun tc => tc.index == i

end OpenAI

/-- Fold of `anthropicStream.Next` over a list of successfully parsed
events, keeping the state (all the event shapes used below make Next
return true). -/
def Anthropic.foldEvents (s : Anthropic.StreamState) (es : List Anthropic.Event) :
    Anthropic.StreamState :=
  es.foldl (fun t e => (Anthropic.stepEvent t e).2) s

/-- Complete tool calls carried by one Gemini chunk, in part order: the
function-call parts of the first candidate, each already whole, with the
function name doubling as the id.  This is what `geminiStream.Next`
appends per chunk: Gemini keeps no fragment-keyed in-progress entries. -/
def Gemini.partCalls (c : Gemini.VendorChunk) : List ToolCall :=
  match c.candidates with
  | [] => []
  | cand :: _ =>
      match cand.content with
      | none => []
      | some ct =>
          ct.parts.filterMap fun p =>
            match p.functionCall with
            | some fc => some { id := fc.name, name := fc.name, arguments := fc.argsJSON }
            | none => none

end Bucephalus

open Bucephalus

/-- Storing a key and looking the same key up yields the stored value. -/
theorem mapLookup_mapSet_self {κ ν : Type} [DecidableEq κ]
    (l : List (κ × ν)) (k : κ) (v : ν) : mapLookup (mapSet l k v) k = some v := by
  induction l with
  | nil => simp [mapSet, mapLookup]
  | cons hd tl ih =>
      obtain ⟨j, w⟩ := hd
      by_cases hj : j = k
      · subst hj
        simp [mapSet, mapLookup]
      · simp [mapSet, mapLookup, hj, ih]

/-- Storing one key leaves lookups of other keys unchanged. -/
theorem mapLookup_mapSet_other {κ ν : Type} [DecidableEq κ]
    (l : List (κ × ν)) {k k2 : κ} (v : ν) (hk : k ≠ k2) :
    mapLookup (mapSet l k v) k2 = mapLookup l k2 := by
  induction l with
  | nil => simp [mapSet, mapLookup, hk]
  | cons hd tl ih =>
      obtain ⟨j, w⟩ := hd
      by_cases hj : j = k
      · subst hj
        simp [mapSet, mapLookup, hk]
      · simp [mapSet, mapLookup, hj, ih]

/-- C6: each vendor finish-reason conversion function is total with range
contained in stop, tool_calls, length; every recognized vendor
string maps to its designated canonical reason; every unrecognized string
(the empty string included) maps to stop.  This holds for all three
adapters. -/
theorem c6_finish_reason_mapping_total :
    (∀ r : String,
        OpenAI.convertFinishReason r
          ∈ [finishReasonStop, finishReasonToolCalls, finishReasonLength]
      ∧ Gemini.convertFinishReason r
          ∈ [finishReasonStop, finishReasonToolCalls, finishReasonLength]
      ∧ Anthropic.convertStopReason r
          ∈ [finishReasonStop, finishReasonToolCalls, finishReasonLength])
  ∧ OpenAI.convertFinishReason "tool_calls" = finishReasonToolCalls
  ∧ OpenAI.convertFinishReason "length" = finishReasonLength
  ∧ Gemini.convertFinishReason "STOP" = finishReasonStop
  ∧ Gemini.convertFinishReason "MAX_TOKENS" = finishReasonLength
  ∧ Gemini.convertFinishReason "TOOL_USE" = finishReasonToolCalls
  ∧ Gemini.convertFinishReason "FUNCTION_CALL" = finishReasonToolCalls
  ∧ Anthropic.convertStopReason "tool_use" = finishReasonToolCalls
  ∧ Anthropic.convertStopReason "max_tokens" = finishReasonLength
  ∧ (∀ r : String, r ∉ ["tool_calls", "length"] →
      OpenAI.convertFinishReason r = finishReasonStop)
  ∧ (∀ r : String, r ∉ ["STOP", "MAX_TOKENS", "TOOL_USE", "FUNCTION_CALL"] →
      Gemini.convertFinishReason r = finishReasonStop)
  ∧ (∀ r : String, r ∉ ["tool_use", "max_tokens"] →
      Anthropic.convertStopReason r = finishReasonStop) := by
  refine ⟨fun r => ⟨?_, ?_, ?_⟩, by decide, by decide, by decide, by decide, by decide,
    by decide, by decide, by decide, ?_, ?_, ?_⟩
  · unfold OpenAI.convertFinishReason
    split_ifs <;> simp
  · unfold Gemini.convertFinishReason
    split_ifs <;> simp
  · unfold Anthropic.convertStopReason
    split_ifs <;> simp
  · intro r hr
    simp only [List.mem_cons, List.not_mem_nil, or_false, not_or] at hr
    unfold OpenAI.convertFinishReason
    split_ifs with h1 h2 <;> simp_all
  · intro r hr
    simp only [List.mem_cons, List.not_mem_nil, or_false, not_or] at hr
    unfold Gemini.convertFinishReason
    split_ifs with h1 h2 h3 <;> simp_all
  · intro r hr
    simp only [List.mem_cons, List.not_mem_nil, or_false, not_or] at hr
    unfold Anthropic.convertStopReason
    split_ifs with h1 h2 <;> simp_all

/-- Witness for C6: the empty string and an arbitrary unrecognized string are
not in any recognized list and map to stop under all three conversions. -/
theorem c6_finish_reason_mapping_total_witness :
    OpenAI.convertFinishReason "" = finishReasonStop
    ∧ Gemini.convertFinishReason "stop" = finishReasonStop
    ∧ Anthropic.convertStopReason "end_turn" = finishReasonStop := by
  refine ⟨?_, ?_, ?_⟩
  · exact c6_finish_reason_mapping_total.2.2.2.2.2.2.2.2.2.1 "" (by decide)
  · exact c6_finish_reason_mapping_total.2.2.2.2.2.2.2.2.2.2.1 "stop" (by decide)
  · exact c6_finish_reason_mapping_total.2.2.2.2.2.2.2.2.2.2.2 "end_turn" (by decide)

/-- C8: in all three streaming normalizers, once a read has failed (err
set) or the stream is exhausted (done set), every later Next call
returns false at once, changes nothing, and consumes no further read
from the underlying byte stream; the state (hence the value Err keeps
returning) is unchanged. -/
theorem c8_dead_stream_stays_dead :
    (∀ (s : OpenAI.StreamState) (input : List (Except ReadErr OpenAI.VendorChunk)),
        s.done = true ∨ s.err ≠ none → OpenAI.advance s input = (false, s, input))
  ∧ (∀ (s : Gemini.StreamState) (input : List (Except ReadErr Gemini.VendorChunk)),
        s.done = true ∨ s.err ≠ none → Gemini.advance s input = (false, s, input))
  ∧ (∀ (s : Anthropic.StreamState) (input : List (Except ReadErr Anthropic.Event)),
        s.done = true ∨ s.err ≠ none → Anthropic.advance s input = (false, s, input)) := by
  refine ⟨?_, ?_, ?_⟩ <;>
    (intro s input h
     have hh : (s.done || s.err.isSome) = true := by
       rcases h with h | h
       · simp [h]
       · simp [Option.isSome_iff_ne_none.mpr h]
     first
       | (simp [OpenAI.advance, OpenAI.halted, hh])
       | (simp [Gemini.advance, Gemini.halted, hh])
       | (simp [Anthropic.advance, Anthropic.halted, hh]))

/-- Witness for C8: a done OpenAI stream, a failed Gemini stream and a
done Anthropic stream each refuse to advance on a nonempty input. -/
theorem c8_dead_stream_stays_dead_witness :
    OpenAI.advance { done := true } [.error .eof] = (false, { done := true }, [.error .eof])
    ∧ Gemini.advance { err := some "boom" } [.error .eof]
        = (false, { err := some "boom" }, [.error .eof])
    ∧ Anthropic.advance { done := true } [.error .eof]
        = (false, { done := true }, [.error .eof]) :=
  ⟨c8_dead_stream_stays_dead.1 _ _ (Or.inl rfl),
   c8_dead_stream_stays_dead.2.1 _ _ (Or.inr (by simp)),
   c8_dead_stream_stays_dead.2.2 _ _ (Or.inl rfl)⟩

/-- Containment of each member in the space-joined rendering of a list. -/
theorem mem_infix_joinSpace {n : String} : ∀ {l : List String}, n ∈ l →
    n.data <:+: (Registry.joinSpace l).data := by
  intro l
  induction l with
  | nil => intro h; cases h
  | cons hd tl ih =>
      intro h
      cases tl with
      | nil =>
          simp at h
          subst h
          simp [Registry.joinSpace]
      | cons h2 t2 =>
          rcases List.mem_cons.mp h with rfl | hmem
          · refine ⟨[], (" " ++ Registry.joinSpace (h2 :: t2)).data, ?_⟩
            simp [Registry.joinSpace, String.data_append]
          · obtain ⟨s, t, hst⟩ := ih hmem
            refine ⟨(hd ++ " ").data ++ s, t, ?_⟩
            simp only [Registry.joinSpace, String.data_append, List.append_assoc]
            rw [← hst]
            simp [List.append_assoc]

/-- C9: for every registry state, Get on an unregistered name returns an
error whose text contains the requested name and every currently
registered provider name, and Get on a registered name returns the most
recently registered constructor for invocation (a Go map assignment in
Register makes the last write win). -/
theorem c9_registry_get :
    (∀ (α : Type) (reg : List (String × α)) (name : String),
        mapLookup reg name = none →
        ∃ msg, Registry.get reg name = .error msg
          ∧ name.data <:+: msg.data
          ∧ ∀ r ∈ Registry.available reg, r.data <:+: msg.data)
  ∧ (∀ (α : Type) (reg : List (String × α)) (name : String) (f : α),
        Registry.get (Registry.register reg name f) name = .ok f) := by
  constructor
  · intro α reg name hnone
    refine ⟨Registry.unknownProviderError name (Registry.available reg), ?_, ?_, ?_⟩
    · simp [Registry.get, hnone]
    · refine ⟨("unknown provider: \"" : String).data,
        ("\" (available: [" ++ Registry.joinSpace (Registry.available reg) ++ "])").data, ?_⟩
      simp [Registry.unknownProviderError, String.data_append]
    · intro r hr
      obtain ⟨s, t, hst⟩ := mem_infix_joinSpace hr
      refine ⟨("unknown provider: \"" ++ name ++ "\" (available: [").data ++ s,
        t ++ ("])" : String).data, ?_⟩
      simp only [Registry.unknownProviderError, String.data_append, List.append_assoc]
      rw [← hst]
      simp [List.append_assoc]
  · intro α reg name f
    simp [Registry.get, Registry.register, mapLookup_mapSet_self]

/-- Witness for C9: a two-entry registry rejects an unknown name with the
enumerating error text, and re-registering a taken name resolves to the
newer factory. -/
theorem c9_registry_get_witness :
    (∃ msg, Registry.get [("provider-a", 1), ("provider-b", 2)] "unknown" = .error msg
      ∧ ("unknown" : String).data <:+: msg.data
      ∧ ∀ r ∈ Registry.available [("provider-a", (1 : Nat)), ("provider-b", 2)],
          r.data <:+: msg.data)
    ∧ Registry.get (Registry.register [("gemini", 1)] "gemini" 2) "gemini" = .ok 2 :=
  ⟨c9_registry_get.1 Nat [("provider-a", 1), ("provider-b", 2)] "unknown" (by decide),
   c9_registry_get.2 Nat [("gemini", 1)] "gemini" 2⟩

/-- Propagation of id-equals-name through one Gemini part step, for the
chunk under construction and the accumulator. -/
theorem gemini_stepPart_id_name (p : Gemini.Part) (cur : StreamChunk) (r : Response)
    (hc : ∀ d, cur.toolCallDelta = some d → d.id = d.name)
    (hr : ∀ tc ∈ r.toolCalls, tc.id = tc.name) :
    (∀ d, (Gemini.stepPart (cur, r) p).1.toolCallDelta = some d → d.id = d.name)
    ∧ (∀ tc ∈ (Gemini.stepPart (cur, r) p).2.toolCalls, tc.id = tc.name) := by
  unfold Gemini.stepPart
  cases hfc : p.functionCall with
  | some fc =>
      constructor
      · intro d hd
        simp at hd
        subst hd
        rfl
      · intro tc htc
        simp at htc
        rcases htc with htc | htc
        · split at htc <;> exact hr tc htc
        · subst htc
          rfl
  | none =>
      constructor
      · intro d hd
        simp at hd
        split at hd <;> exact hc d hd
      · intro tc htc
        simp at htc
        split at htc <;> exact hr tc htc

/-- Propagation of id-equals-name through the fold over the parts of one
Gemini candidate. -/
theorem gemini_foldParts_id_name (parts : List Gemini.Part) :
    ∀ (cur : StreamChunk) (r : Response),
    (∀ d, cur.toolCallDelta = some d → d.id = d.name) →
    (∀ tc ∈ r.toolCalls, tc.id = tc.name) →
    (∀ d, (parts.foldl Gemini.stepPart (cur, r)).1.toolCallDelta = some d → d.id = d.name)
    ∧ (∀ tc ∈ (parts.foldl Gemini.stepPart (cur, r)).2.toolCalls, tc.id = tc.name) := by
  induction parts with
  | nil => intro cur r hc hr; exact ⟨hc, hr⟩
  | cons p rest ih =>
      intro cur r hc hr
      have hstep := gemini_stepPart_id_name p cur r hc hr
      have := ih (Gemini.stepPart (cur, r) p).1 (Gemini.stepPart (cur, r) p).2 hstep.1 hstep.2
      simpa using this

/-- Propagation of id-equals-name through one parsed Gemini chunk. -/
theorem gemini_stepChunk_id_name (s : Gemini.StreamState) (c : Gemini.VendorChunk)
    (hs : ∀ tc ∈ s.accumulated.toolCalls, tc.id = tc.name) :
    (∀ tc ∈ (Gemini.stepChunk s c).accumulated.toolCalls, tc.id = tc.name)
    ∧ (∀ d, ((Gemini.stepChunk s c).current.getD {}).toolCallDelta = some d → d.id = d.name) := by
  unfold Gemini.stepChunk
  cases hcand : c.candidates with
  | nil =>
      cases hu : c.usageMetadata <;>
        simp [hu, hcand] <;>
        first
          | exact hs
          | (refine ⟨hs, ?_⟩
             intro d hd
             simp at hd)
  | cons cand rest =>
      cases hct : cand.content with
      | none =>
          cases hu : c.usageMetadata <;>
            simp [hu, hcand, hct] <;>
            first
              | exact hs
              | (refine ⟨hs, ?_⟩
                 intro d hd
                 simp at hd)
      | some ct =>
          have hfold := gemini_foldParts_id_name ct.parts
            { finishReason := Gemini.convertFinishReason cand.finishReason }
            (match c.usageMetadata with
             | some u =>
                { s.accumulated with
                    usage :=
                      { promptTokens := u.promptTokenCount,
                        completionTokens := u.candidatesTokenCount,
                        totalTokens := u.totalTokenCount },
                    finishReason := Gemini.convertFinishReason cand.finishReason }
             | none =>
                { s.accumulated with finishReason := Gemini.convertFinishReason cand.finishReason })
            (by intro d hd; simp at hd)
            (by cases hu : c.usageMetadata <;> simp [hu] <;> exact hs)
          cases hu : c.usageMetadata <;> simp [hu, hcand, hct] <;> simp [hu] at hfold <;>
            exact ⟨hfold.2, hfold.1⟩

/-- Propagation of id-equals-name through a whole Gemini pull loop. -/
theorem gemini_run_id_name (input : List (Except ReadErr Gemini.VendorChunk)) :
    ∀ s : Gemini.StreamState,
    (∀ tc ∈ s.accumulated.toolCalls, tc.id = tc.name) →
    (∀ tc ∈ (Gemini.model.run s input).1.accumulated.toolCalls, tc.id = tc.name)
    ∧ (∀ c ∈ (Gemini.model.run s input).2,
        ∀ d, c.toolCallDelta = some d → d.id = d.name) := by
  induction input with
  | nil =>
      intro s hs
      constructor
      · simpa [StreamModel.run] using hs
      · intro c hc
        simp [StreamModel.run] at hc
  | cons r rest ih =>
      intro s hs
      by_cases hh : Gemini.halted s
      · constructor
        · simpa [StreamModel.run, Gemini.model, hh] using hs
        · intro c hc
          simp [StreamModel.run, Gemini.model, hh] at hc
      · cases r with
        | error e =>
            cases e with
            | eof =>
                constructor
                · simpa [StreamModel.run, Gemini.model, Gemini.next, hh] using hs
                · intro c hc
                  simp [StreamModel.run, Gemini.model, Gemini.next, hh] at hc
            | fail m =>
                constructor
                · simpa [StreamModel.run, Gemini.model, Gemini.next, hh] using hs
                · intro c hc
                  simp [StreamModel.run, Gemini.model, Gemini.next, hh] at hc
        | ok c =>
            have hstep := gemini_stepChunk_id_name s c hs
            have htail := ih (Gemini.stepChunk s c) hstep.1
            constructor
            · simpa [StreamModel.run, Gemini.model, Gemini.next, hh] using htail.1
            · intro ch hch
              simp [StreamModel.run, Gemini.model, Gemini.next, hh] at hch
              rcases hch with hch | hch
              · subst hch
                exact hstep.2
              · exact htail.2 ch hch

/-- Fold of `gemini.Provider.convertResponse` over candidate parts keeps
id equal to name in every appended tool call. -/
theorem gemini_convertResponse_fold_id_name (parts : List Gemini.Part) :
    ∀ r : Response, (∀ tc ∈ r.toolCalls, tc.id = tc.name) →
    ∀ tc ∈ (parts.foldl (fun r p =>
        let r1 :=
          if p.text ≠ "" then { r with content := r.content ++ p.text } else r
        match p.functionCall with
        | some fc =>
            let tcv : ToolCall :=
              { id := fc.name, name := fc.name, arguments := fc.argsJSON }
            { r1 with toolCalls := r1.toolCalls ++ [tcv] }
        | none => r1) r).toolCalls, tc.id = tc.name := by
  induction parts with
  | nil => intro r hr; exact hr
  | cons p rest ih =>
      intro r hr
      simp only [List.foldl_cons]
      apply ih
      cases hfc : p.functionCall with
      | some fc =>
          intro tc htc
          simp [hfc] at htc
          rcases htc with htc | htc
          · split at htc <;> exact hr tc htc
          · subst htc
            rfl
      | none =>
          intro tc htc
          simp [hfc] at htc
          split at htc <;> exact hr tc htc

/-- C10: in the Gemini adapter every canonical tool call carries an ID
equal to its Name: in a converted non-streaming response, in every
streamed ToolCallDelta, and in the accumulated streaming response (the
vendor supplies no call id, so the function name is used). -/
theorem c10_gemini_tool_call_id_equals_name :
    (∀ (resp : Gemini.VendorChunk) (tc : ToolCall),
        tc ∈ (Gemini.convertResponse resp).toolCalls → tc.id = tc.name)
  ∧ (∀ (input : List (Except ReadErr Gemini.VendorChunk)),
        (∀ tc ∈ (Gemini.model.run Gemini.initState input).1.accumulated.toolCalls,
            tc.id = tc.name)
      ∧ (∀ c ∈ (Gemini.model.run Gemini.initState input).2,
            ∀ d, c.toolCallDelta = some d → d.id = d.name)) := by
  constructor
  · intro resp tc htc
    unfold Gemini.convertResponse at htc
    rcases hcand : resp.candidates with _ | ⟨cand, rest⟩ <;> rw [hcand] at htc <;>
      cases hu : resp.usageMetadata <;> rw [hu] at htc <;> dsimp only at htc
    · simp at htc
    · simp at htc
    · rcases hct : cand.content with _ | ct <;> rw [hct] at htc <;> dsimp only at htc
      · simp at htc
      · exact gemini_convertResponse_fold_id_name ct.parts _ (by simp) tc htc
    · rcases hct : cand.content with _ | ct <;> rw [hct] at htc <;> dsimp only at htc
      · simp at htc
      · exact gemini_convertResponse_fold_id_name ct.parts _ (by simp) tc htc
  · intro input
    exact gemini_run_id_name input Gemini.initState (by intro tc htc; simp [Gemini.initState] at htc)

/-- Witness for C10: a concrete Gemini response carrying one function
call yields the tool call with id equal to name. -/
theorem c10_gemini_tool_call_id_equals_name_witness :
    (⟨"f", "f", "42"⟩ : ToolCall)
      ∈ (Gemini.convertResponse ⟨[⟨some ⟨[⟨"", some ⟨"f", "42"⟩⟩]⟩, ""⟩], none⟩).toolCalls
    ∧ (⟨"f", "f", "42"⟩ : ToolCall).id = (⟨"f", "f", "42"⟩ : ToolCall).name :=
  ⟨by decide, c10_gemini_tool_call_id_equals_name.1
      ⟨[⟨some ⟨[⟨"", some ⟨"f", "42"⟩⟩]⟩, ""⟩], none⟩ ⟨"f", "f", "42"⟩ (by decide)⟩

/-- Unfolding of String.join on a cons cell. -/
theorem string_join_cons (s : String) (l : List String) :
    String.join (s :: l) = s ++ String.join l := by
  apply String.ext
  simp [String.data_join, String.data_append]

/-- Content accounting of a pull loop: when every step that returns true
extends the content projection by exactly the delta of the surfaced
chunk, and every step that returns false leaves it unchanged, the final
content equals the initial content followed by the concatenation of the
surfaced deltas in delivery order. -/
theorem StreamModel.run_content {σ ε : Type} (M : StreamModel σ ε) (content : σ → String)
    (input : List (Except ReadErr ε)) :
    (∀ (t : σ) (r : Except ReadErr ε), r ∈ input → (M.step t r).1 = true →
        content (M.step t r).2 = content t ++ (M.cur (M.step t r).2).delta) →
    (∀ (t : σ) (r : Except ReadErr ε), r ∈ input → (M.step t r).1 = false →
        content (M.step t r).2 = content t) →
    ∀ s : σ,
    content (M.run s input).1
      = content s ++ String.join (((M.run s input).2).map StreamChunk.delta) := by
  induction input with
  | nil =>
      intro hT hF s
      simp [StreamModel.run, String.join]
  | cons r rest ih =>
      intro hT hF s
      by_cases hh : M.halted s
      · simp [StreamModel.run, hh, String.join]
      · cases hb : (M.step s r).1 with
        | false =>
            have hF1 := hF s r (List.mem_cons_self r rest) hb
            simp [StreamModel.run, hh, hb, hF1, String.join]
        | true =>
            have hT1 := hT s r (List.mem_cons_self r rest) hb
            have ihr := ih (fun t rr hm => hT t rr (List.mem_cons_of_mem r hm))
              (fun t rr hm => hF t rr (List.mem_cons_of_mem r hm)) (M.step s r).2
            simp only [StreamModel.run, hh, hb, if_false, if_true, Bool.false_eq_true,
              ite_false, ite_true, List.map_cons, string_join_cons]
            rw [ihr, hT1, String.append_assoc]

/-- Preservation of the text delta and the finish reason of the chunk
under construction by the OpenAI tool-call fragment loop: the loop only
writes the toolCallDelta field. -/
theorem openai_foldDeltas_preserves (l : List OpenAI.StreamToolCall) :
    ∀ (calls : List (Int × ToolCall)) (cur : StreamChunk),
      (l.foldl OpenAI.applyToolCallDelta (calls, cur)).2.delta = cur.delta
      ∧ (l.foldl OpenAI.applyToolCallDelta (calls, cur)).2.finishReason = cur.finishReason := by
  induction l with
  | nil => intro calls cur; exact ⟨rfl, rfl⟩
  | cons tc rest ih =>
      intro calls cur
      simp only [List.foldl_cons]
      rcases happly : OpenAI.applyToolCallDelta (calls, cur) tc with ⟨calls1, cur1⟩
      have hpres : cur1.delta = cur.delta ∧ cur1.finishReason = cur.finishReason := by
        unfold OpenAI.applyToolCallDelta at happly
        dsimp only at happly
        split at happly <;> (cases happly; exact ⟨rfl, rfl⟩)
      obtain ⟨h1, h2⟩ := ih calls1 cur1
      exact ⟨h1.trans hpres.1, h2.trans hpres.2⟩

/-- Content accounting of one parsed OpenAI chunk: the accumulated text
grows by exactly the delta surfaced on the produced chunk. -/
theorem openai_stepChunk_content (s : OpenAI.StreamState) (c : OpenAI.VendorChunk) :
    (OpenAI.stepChunk s c).accumulated.content
      = s.accumulated.content ++ ((OpenAI.stepChunk s c).current.getD {}).delta := by
  unfold OpenAI.stepChunk
  rcases hch : c.choices with _ | ⟨choice, rest⟩ <;>
    cases hu : c.usage <;> dsimp only
  · simp
  · simp
  · rcases hfold : choice.delta.toolCalls.foldl OpenAI.applyToolCallDelta
        (s.toolCalls,
          if choice.delta.content ≠ "" then { delta := choice.delta.content }
          else ({} : StreamChunk)) with ⟨calls2, cur2⟩
    have hd := (openai_foldDeltas_preserves choice.delta.toolCalls s.toolCalls
        (if choice.delta.content ≠ "" then { delta := choice.delta.content }
         else ({} : StreamChunk))).1
    rw [hfold] at hd
    rcases hfr : choice.finishReason with _ | fr <;> dsimp only <;>
      by_cases hcc : choice.delta.content ≠ "" <;>
        simp [hcc] at hd ⊢ <;> simp [hd]
  · rcases hfold : choice.delta.toolCalls.foldl OpenAI.applyToolCallDelta
        (s.toolCalls,
          if choice.delta.content ≠ "" then { delta := choice.delta.content }
          else ({} : StreamChunk)) with ⟨calls2, cur2⟩
    have hd := (openai_foldDeltas_preserves choice.delta.toolCalls s.toolCalls
        (if choice.delta.content ≠ "" then { delta := choice.delta.content }
         else ({} : StreamChunk))).1
    rw [hfold] at hd
    rcases hfr : choice.finishReason with _ | fr <;> dsimp only <;>
      by_cases hcc : choice.delta.content ≠ "" <;>
        simp [hcc] at hd ⊢ <;> simp [hd]

/-- Content accounting of one full OpenAI Next step: a true step extends
the accumulated text by the surfaced delta, a false step (EOF flush or
read failure) leaves it unchanged. -/
theorem openai_next_content (s : OpenAI.StreamState) (r : Except ReadErr OpenAI.VendorChunk) :
    ((OpenAI.next s r).1 = true →
      (OpenAI.next s r).2.accumulated.content
        = s.accumulated.content ++ ((OpenAI.next s r).2.current.getD {}).delta)
    ∧ ((OpenAI.next s r).1 = false →
      (OpenAI.next s r).2.accumulated.content = s.accumulated.content) := by
  cases r with
  | error e => cases e <;> exact ⟨fun h => Bool.noConfusion h, fun _ => rfl⟩
  | ok c =>
      refine ⟨fun _ => openai_stepChunk_content s c, ?_⟩
      intro h
      cases h

/-- Content accounting of one Anthropic event step: a true step extends
the accumulated text by the surfaced delta, and the message_stop step
leaves it unchanged. -/
theorem anthropic_stepEvent_content (s : Anthropic.StreamState) (e : Anthropic.Event) :
    ((Anthropic.stepEvent s e).1 = true →
      (Anthropic.stepEvent s e).2.accumulated.content
        = s.accumulated.content ++ ((Anthropic.stepEvent s e).2.current.getD {}).delta)
    ∧ ((Anthropic.stepEvent s e).1 = false →
      (Anthropic.stepEvent s e).2.accumulated.content = s.accumulated.content) := by
  unfold Anthropic.stepEvent
  split_ifs with h1 h2 h3 h4 h5 h6
  · rcases e.contentBlock with _ | cb <;> dsimp only
    · exact ⟨fun _ => by simp, fun h => by simp at h⟩
    · split_ifs <;> exact ⟨fun _ => by simp, fun h => by simp at h⟩
  · rcases e.delta with _ | d <;> dsimp only
    · exact ⟨fun _ => by simp, fun h => by simp at h⟩
    · split_ifs with ht hf <;> constructor <;> intro h <;>
        first
          | (simp at h
             done)
          | simp_all
  · exact ⟨fun _ => by simp, fun h => by simp at h⟩
  · exact ⟨fun _ => by simp, fun h => by simp at h⟩
  · rcases e.delta with _ | d <;> dsimp only
    · rcases e.usage with _ | u <;> dsimp only <;>
        exact ⟨fun _ => by simp, fun h => by simp at h⟩
    · split_ifs <;> rcases e.usage with _ | u <;> dsimp only <;>
        exact ⟨fun _ => by simp, fun h => by simp at h⟩
  · rcases e.message with _ | m <;> dsimp only <;>
      exact ⟨fun _ => by simp, fun h => by simp at h⟩
  · exact ⟨fun h => by simp at h, fun _ => rfl⟩
  · exact ⟨fun _ => by simp, fun h => by simp at h⟩

/-- Content accounting of one full Anthropic Next step. -/
theorem anthropic_next_content (s : Anthropic.StreamState) (r : Except ReadErr Anthropic.Event) :
    ((Anthropic.next s r).1 = true →
      (Anthropic.next s r).2.accumulated.content
        = s.accumulated.content ++ ((Anthropic.next s r).2.current.getD {}).delta)
    ∧ ((Anthropic.next s r).1 = false →
      (Anthropic.next s r).2.accumulated.content = s.accumulated.content) := by
  cases r with
  | error e => cases e <;> exact ⟨(fun h => by cases h), fun _ => rfl⟩
  | ok e => exact anthropic_stepEvent_content s e

/-- Behaviour of the Gemini part fold when no part carries text: the
chunk delta and the accumulated content are untouched. -/
theorem gemini_foldParts_no_text (parts : List Gemini.Part) :
    ∀ (cur : StreamChunk) (r : Response),
    (parts.filter fun p => p.text != "").length = 0 →
    (parts.foldl Gemini.stepPart (cur, r)).1.delta = cur.delta
    ∧ (parts.foldl Gemini.stepPart (cur, r)).2.content = r.content := by
  induction parts with
  | nil => intro cur r _; exact ⟨rfl, rfl⟩
  | cons p rest ih =>
      intro cur r h
      have hp : p.text = "" := by
        rcases hfp : (p.text != "") with _ | _
        · simpa using hfp
        · simp [List.filter_cons, hfp] at h
      have hrest : (rest.filter fun p => p.text != "").length = 0 := by
        simp [List.filter_cons, hp] at h
        simpa using h
      simp only [List.foldl_cons]
      rcases hsp : Gemini.stepPart (cur, r) p with ⟨cur1, r1⟩
      have hcr : cur1.delta = cur.delta ∧ r1.content = r.content := by
        unfold Gemini.stepPart at hsp
        dsimp only at hsp
        simp only [hp] at hsp
        rcases hfc : p.functionCall with _ | fc <;> rw [hfc] at hsp <;>
          (cases hsp; exact ⟨by simp, by simp⟩)
      obtain ⟨h1, h2⟩ := ih cur1 r1 hrest
      exact ⟨h1.trans hcr.1, h2.trans hcr.2⟩

/-- Content accounting of the Gemini part fold when at most one part
carries text and the chunk delta starts empty: the content grows by
exactly the final chunk delta. -/
theorem gemini_foldParts_single_text (parts : List Gemini.Part) :
    ∀ (cur : StreamChunk) (r : Response),
    cur.delta = "" →
    (parts.filter fun p => p.text != "").length ≤ 1 →
    (parts.foldl Gemini.stepPart (cur, r)).2.content
      = r.content ++ (parts.foldl Gemini.stepPart (cur, r)).1.delta := by
  induction parts with
  | nil =>
      intro cur r hd _
      simp [hd]
  | cons p rest ih =>
      intro cur r hd hc
      simp only [List.foldl_cons]
      rcases hsp : Gemini.stepPart (cur, r) p with ⟨cur1, r1⟩
      by_cases hp : p.text = ""
      · have hcr : cur1.delta = cur.delta ∧ r1.content = r.content := by
          unfold Gemini.stepPart at hsp
          dsimp only at hsp
          simp only [hp] at hsp
          rcases hfc : p.functionCall with _ | fc <;> rw [hfc] at hsp <;>
            (cases hsp; exact ⟨by simp, by simp⟩)
        have hrest : (rest.filter fun p => p.text != "").length ≤ 1 := by
          simp [List.filter_cons, hp] at hc
          simpa using hc
        rw [ih cur1 r1 (hcr.1.trans hd) hrest, hcr.2]
      · have hcr : cur1.delta = p.text ∧ r1.content = r.content ++ p.text := by
          unfold Gemini.stepPart at hsp
          dsimp only at hsp
          simp only [if_pos hp] at hsp
          rcases hfc : p.functionCall with _ | fc <;> simp [hfc, hp] at hsp <;>
            (cases hsp.1; cases hsp.2; exact ⟨by simp, by simp⟩)
        have hrest : (rest.filter fun p => p.text != "").length = 0 := by
          have hfp : (p.text != "") = true := by simpa using hp
          rw [List.filter_cons, if_pos hfp, List.length_cons] at hc
          omega
        obtain ⟨h1, h2⟩ := gemini_foldParts_no_text rest cur1 r1 hrest
        rw [h2, h1, hcr.1, hcr.2]

/-- Content accounting of one parsed Gemini chunk whose candidates carry
at most one text part per candidate content. -/
theorem gemini_stepChunk_content (s : Gemini.StreamState) (c : Gemini.VendorChunk)
    (hc : ∀ cand ∈ c.candidates, ∀ ct, cand.content = some ct →
        (ct.parts.filter fun p => p.text != "").length ≤ 1) :
    (Gemini.stepChunk s c).accumulated.content
      = s.accumulated.content ++ ((Gemini.stepChunk s c).current.getD {}).delta := by
  unfold Gemini.stepChunk
  rcases hcand : c.candidates with _ | ⟨cand, rest⟩ <;> cases hu : c.usageMetadata <;> dsimp only
  · simp
  · simp
  · rcases hct : cand.content with _ | ct <;> dsimp only
    · simp
    · have hcount := hc cand (by rw [hcand]; exact List.mem_cons_self _ _) ct hct
      have hfold := gemini_foldParts_single_text ct.parts
        { finishReason := Gemini.convertFinishReason cand.finishReason }
        { s.accumulated with finishReason := Gemini.convertFinishReason cand.finishReason }
        rfl hcount
      simpa using hfold
  · rcases hct : cand.content with _ | ct <;> dsimp only
    · simp
    · have hcount := hc cand (by rw [hcand]; exact List.mem_cons_self _ _) ct hct
      have hfold := gemini_foldParts_single_text ct.parts
        { finishReason := Gemini.convertFinishReason cand.finishReason }
        (let u := (c.usageMetadata.getD {})
         { s.accumulated with
             usage :=
               { promptTokens := u.promptTokenCount,
                 completionTokens := u.candidatesTokenCount,
                 totalTokens := u.totalTokenCount },
             finishReason := Gemini.convertFinishReason cand.finishReason })
        rfl hcount
      simp only [hu] at hfold
      simpa using hfold

/-- Content accounting of one full Gemini Next step, under the at most
one text part per candidate condition. -/
theorem gemini_next_content (s : Gemini.StreamState) (r : Except ReadErr Gemini.VendorChunk)
    (hc : ∀ c, r = .ok c → ∀ cand ∈ c.candidates, ∀ ct, cand.content = some ct →
        (ct.parts.filter fun p => p.text != "").length ≤ 1) :
    ((Gemini.next s r).1 = true →
      (Gemini.next s r).2.accumulated.content
        = s.accumulated.content ++ ((Gemini.next s r).2.current.getD {}).delta)
    ∧ ((Gemini.next s r).1 = false →
      (Gemini.next s r).2.accumulated.content = s.accumulated.content) := by
  cases r with
  | error e => cases e <;> exact ⟨(fun h => by cases h), fun _ => rfl⟩
  | ok c =>
      refine ⟨fun _ => gemini_stepChunk_content s c (hc c rfl), ?_⟩
      intro h
      cases h

/-- C1 (amended): for the OpenAI and Anthropic streaming normalizers,
concatenating the Delta fields of all chunks produced by successive
Next and Current calls, in delivery order, equals the Content of the
accumulated response, for every event sequence; for the Gemini
normalizer the same holds whenever each streamed candidate content
carries at most one nonempty text part.  (In general Gemini overwrites
the chunk Delta with each text part of an event while accumulating all
of them, see the counterexample.) -/
theorem c1_amended_delta_concatenation :
    (∀ (input : List (Except ReadErr OpenAI.VendorChunk)) (s : OpenAI.StreamState),
        (OpenAI.model.run s input).1.accumulated.content
          = s.accumulated.content
            ++ String.join (((OpenAI.model.run s input).2).map StreamChunk.delta))
  ∧ (∀ (input : List (Except ReadErr Anthropic.Event)) (s : Anthropic.StreamState),
        (Anthropic.model.run s input).1.accumulated.content
          = s.accumulated.content
            ++ String.join (((Anthropic.model.run s input).2).map StreamChunk.delta))
  ∧ (∀ (input : List (Except ReadErr Gemini.VendorChunk)) (s : Gemini.StreamState),
        (∀ c, Except.ok c ∈ input → ∀ cand ∈ c.candidates, ∀ ct, cand.content = some ct →
            (ct.parts.filter fun p => p.text != "").length ≤ 1) →
        (Gemini.model.run s input).1.accumulated.content
          = s.accumulated.content
            ++ String.join (((Gemini.model.run s input).2).map StreamChunk.delta)) := by
  refine ⟨?_, ?_, ?_⟩
  · intro input s
    exact StreamModel.run_content OpenAI.model (fun t => t.accumulated.content) input
      (fun t r _ hb => (openai_next_content t r).1 hb)
      (fun t r _ hb => (openai_next_content t r).2 hb) s
  · intro input s
    exact StreamModel.run_content Anthropic.model (fun t => t.accumulated.content) input
      (fun t r _ hb => (anthropic_next_content t r).1 hb)
      (fun t r _ hb => (anthropic_next_content t r).2 hb) s
  · intro input s hok
    exact StreamModel.run_content Gemini.model (fun t => t.accumulated.content) input
      (fun t r hm hb =>
        (gemini_next_content t r (fun c hrc => hok c (hrc ▸ hm))).1 hb)
      (fun t r hm hb =>
        (gemini_next_content t r (fun c hrc => hok c (hrc ▸ hm))).2 hb) s

/-- Counterexample to C1 as stated: one Gemini event carrying two text
parts produces a single chunk whose Delta is only the second part, while
the accumulated Content holds both, so the concatenation of deltas
differs from the accumulated content. -/
theorem c1_counterexample_gemini_two_text_parts :
    String.join (((Gemini.model.run Gemini.initState
        [.ok ⟨[⟨some ⟨[⟨"a", none⟩, ⟨"b", none⟩]⟩, ""⟩], none⟩, .error .eof]).2).map
          StreamChunk.delta) = "b"
    ∧ (Gemini.model.run Gemini.initState
        [.ok ⟨[⟨some ⟨[⟨"a", none⟩, ⟨"b", none⟩]⟩, ""⟩], none⟩, .error .eof]).1.accumulated.content
        = "ab"
    ∧ ("b" : String) ≠ "ab" :=
  ⟨rfl, rfl, by decide⟩

/-- Witness for C1 (amended): a concrete two-chunk Gemini stream with one
text part per event satisfies the side condition and the delta
concatenation equation. -/
theorem c1_amended_delta_concatenation_witness :
    (Gemini.model.run Gemini.initState
        [.ok ⟨[⟨some ⟨[⟨"Hel", none⟩]⟩, ""⟩], none⟩,
         .ok ⟨[⟨some ⟨[⟨"lo", none⟩]⟩, ""⟩], none⟩, .error .eof]).1.accumulated.content
      = Gemini.initState.accumulated.content
        ++ String.join (((Gemini.model.run Gemini.initState
            [.ok ⟨[⟨some ⟨[⟨"Hel", none⟩]⟩, ""⟩], none⟩,
             .ok ⟨[⟨some ⟨[⟨"lo", none⟩]⟩, ""⟩], none⟩, .error .eof]).2).map
              StreamChunk.delta) :=
  c1_amended_delta_concatenation.2.2
    [.ok ⟨[⟨some ⟨[⟨"Hel", none⟩]⟩, ""⟩], none⟩,
     .ok ⟨[⟨some ⟨[⟨"lo", none⟩]⟩, ""⟩], none⟩, .error .eof] Gemini.initState
    (by
      intro c hcmem cand hcand ct hct
      simp at hcmem
      rcases hcmem with hcmem | hcmem <;> subst hcmem <;> simp at hcand <;> subst hcand <;>
        (simp at hct; subst hct; decide))

/-- C3 (amended): on transport EOF with the stream live, the OpenAI
normalizer returns false from Next and flushes every in-progress tool
call into the accumulated response (in first-observed order as
modelled; Go map iteration order is unspecified); the Gemini normalizer
has no in-progress state and only marks the stream done; the Anthropic
normalizer also only marks the stream done, so a tool-use block still
open at EOF is dropped, not flushed (see the counterexample). -/
theorem c3_amended_eof_flush :
    (∀ (s : OpenAI.StreamState) (input : List (Except ReadErr OpenAI.VendorChunk)),
        s.done = false → s.err = none →
        OpenAI.advance s (.error .eof :: input)
          = (false, { OpenAI.flushToolCalls s with done := true }, input)
        ∧ ({ OpenAI.flushToolCalls s with done := true } : OpenAI.StreamState).accumulated.toolCalls
            = s.accumulated.toolCalls ++ s.toolCalls.map Prod.snd)
  ∧ (∀ (s : Anthropic.StreamState) (input : List (Except ReadErr Anthropic.Event)),
        s.done = false → s.err = none →
        Anthropic.advance s (.error .eof :: input) = (false, { s with done := true }, input))
  ∧ (∀ (s : Gemini.StreamState) (input : List (Except ReadErr Gemini.VendorChunk)),
        s.done = false → s.err = none →
        Gemini.advance s (.error .eof :: input) = (false, { s with done := true }, input)) := by
  refine ⟨?_, ?_, ?_⟩
  · intro s input hdone herr
    constructor
    · simp [OpenAI.advance, OpenAI.halted, OpenAI.next, hdone, herr]
    · rfl
  · intro s input hdone herr
    simp [Anthropic.advance, Anthropic.halted, Anthropic.next, hdone, herr]
  · intro s input hdone herr
    simp [Gemini.advance, Gemini.halted, Gemini.next, hdone, herr]

/-- Counterexample to C3 as stated: the Anthropic normalizer observes a
tool-use block start and an argument fragment (surfaced as a tool-call
delta chunk), then the transport hits EOF without a terminal signal; the
accumulated response contains no tool call at all. -/
theorem c3_counterexample_anthropic_eof_drops_open_block :
    (Anthropic.model.run Anthropic.initState
        [.ok (Anthropic.startToolEvent "t1" "f"), .ok (Anthropic.fragmentEvent "42"),
         .error .eof]).1.accumulated.toolCalls = []
    ∧ ((Anthropic.model.run Anthropic.initState
        [.ok (Anthropic.startToolEvent "t1" "f"), .ok (Anthropic.fragmentEvent "42"),
         .error .eof]).2).map StreamChunk.toolCallDelta
        = [none, some { id := "t1", name := "f", argumentsDelta := "42" }]
    ∧ (Anthropic.model.run Anthropic.initState
        [.ok (Anthropic.startToolEvent "t1" "f"), .ok (Anthropic.fragmentEvent "42"),
         .error .eof]).1.done = true :=
  ⟨rfl, rfl, rfl⟩

/-- Witness for C3 (amended): a live OpenAI stream with one in-progress
tool call flushes it on EOF, and live Anthropic and Gemini streams mark
done on EOF. -/
theorem c3_amended_eof_flush_witness :
    (OpenAI.advance { toolCalls := [(0, { id := "c1", name := "f", arguments := "42" })] }
        [.error .eof]
      = (false,
         { OpenAI.flushToolCalls
             { toolCalls := [(0, { id := "c1", name := "f", arguments := "42" })] } with
               done := true }, [])
      ∧ ({ OpenAI.flushToolCalls
             { toolCalls := [(0, { id := "c1", name := "f", arguments := "42" })] } with
               done := true } : OpenAI.StreamState).accumulated.toolCalls
          = ({} : Response).toolCalls
            ++ ([(0, ({ id := "c1", name := "f", arguments := "42" } : ToolCall))].map Prod.snd))
    ∧ Anthropic.advance {} [.error .eof] = (false, { done := true }, [])
    ∧ Gemini.advance {} [.error .eof] = (false, { done := true }, []) :=
  ⟨c3_amended_eof_flush.1 { toolCalls := [(0, { id := "c1", name := "f", arguments := "42" })] }
      [] rfl rfl,
   c3_amended_eof_flush.2.1 {} [] rfl rfl,
   c3_amended_eof_flush.2.2 {} [] rfl rfl⟩

/-- Invariance of the done flag under any parsed Gemini chunk: only a
read error or EOF ever sets it. -/
theorem gemini_stepChunk_done (s : Gemini.StreamState) (c : Gemini.VendorChunk) :
    (Gemini.stepChunk s c).done = s.done := by
  unfold Gemini.stepChunk
  rcases hcand : c.candidates with _ | ⟨cand, rest⟩ <;> cases hu : c.usageMetadata <;>
    dsimp only <;>
    first
      | rfl
      | (rcases hct : cand.content with _ | ct <;> dsimp only <;> rfl)

/-- C4 (amended): for Framing A (OpenAI) the terminal signal (the
`[DONE]` sentinel, surfaced by the reader as io.EOF) makes Next return
false, flushes every in-progress tool call into the accumulated
response in first-observed order as modelled (Go map iteration order is
unspecified), and marks the stream exhausted, after which Next keeps
returning false without reading.  For Framing C (Anthropic) each tool
call is flushed when its content_block_stop event arrives, appended in
block order; the terminal message_stop only marks the stream exhausted
and flushes nothing, so a tool-use block still open at message_stop is
dropped (see the counterexample).  For Framing B (Gemini) the terminal
signal is the finishReason field of a parsed chunk, and no parsed chunk
ever marks the stream exhausted: Next returns true and leaves done
unchanged (see the counterexample); there is no in-progress tool call
to flush, since each complete function call is appended on arrival, and
the stream is exhausted only by transport EOF. -/
theorem c4_amended_terminal_flush :
    (∀ (s : OpenAI.StreamState),
        OpenAI.next s (.error .eof) = (false, { OpenAI.flushToolCalls s with done := true })
      ∧ (OpenAI.flushToolCalls s).accumulated.toolCalls
          = s.accumulated.toolCalls ++ s.toolCalls.map Prod.snd
      ∧ ∀ input, OpenAI.advance { OpenAI.flushToolCalls s with done := true } input
          = (false, { OpenAI.flushToolCalls s with done := true }, input))
  ∧ (∀ (s : Anthropic.StreamState),
        Anthropic.stepEvent s Anthropic.messageStopEvent
          = (false, { s with current := some {}, done := true })
      ∧ ∀ input, Anthropic.advance { s with current := some ({} : StreamChunk), done := true } input
          = (false, { s with current := some ({} : StreamChunk), done := true }, input))
  ∧ (∀ (s : Anthropic.StreamState), s.currentToolID ≠ "" →
        (Anthropic.stepEvent s Anthropic.stopBlockEvent).2.accumulated.toolCalls
          = s.accumulated.toolCalls
            ++ [{ id := s.currentToolID, name := s.currentToolName,
                  arguments := s.currentToolArgs }])
  ∧ (∀ (s : Gemini.StreamState) (c : Gemini.VendorChunk),
        (Gemini.next s (.ok c)).1 = true
      ∧ (Gemini.next s (.ok c)).2.done = s.done) := by
  refine ⟨?_, ?_, ?_, ?_⟩
  · intro s
    refine ⟨rfl, rfl, ?_⟩
    intro input
    simp [OpenAI.advance, OpenAI.halted]
  · intro s
    constructor
    · simp [Anthropic.stepEvent, Anthropic.messageStopEvent]
    · intro input
      simp [Anthropic.advance, Anthropic.halted]
  · intro s hid
    simp [Anthropic.stepEvent, Anthropic.stopBlockEvent, hid]
  · intro s c
    exact ⟨rfl, gemini_stepChunk_done s c⟩

/-- Counterexample to C4 as stated, in two parts.  Anthropic: an
in-progress tool call (block started, fragment appended) is held when
the terminal message_stop arrives, yet nothing is flushed and the
accumulated response contains no tool call.  Gemini: a chunk carrying
the vendor terminal signal (candidates[].finishReason = "STOP") records
the canonical finish reason but Next returns true and the stream is not
marked exhausted. -/
theorem c4_counterexample_terminal_signal :
    ((Anthropic.model.run Anthropic.initState
        [.ok (Anthropic.startToolEvent "t1" "f"), .ok (Anthropic.fragmentEvent "42"),
         .ok Anthropic.messageStopEvent]).1.accumulated.toolCalls = []
    ∧ (Anthropic.model.run Anthropic.initState
        [.ok (Anthropic.startToolEvent "t1" "f"), .ok (Anthropic.fragmentEvent "42"),
         .ok Anthropic.messageStopEvent]).1.currentToolID = "t1"
    ∧ (Anthropic.model.run Anthropic.initState
        [.ok (Anthropic.startToolEvent "t1" "f"), .ok (Anthropic.fragmentEvent "42"),
         .ok Anthropic.messageStopEvent]).1.done = true)
    ∧ ((Gemini.next Gemini.initState (.ok ⟨[⟨none, "STOP"⟩], none⟩)).1 = true
    ∧ (Gemini.next Gemini.initState (.ok ⟨[⟨none, "STOP"⟩], none⟩)).2.done = false
    ∧ (Gemini.next Gemini.initState
        (.ok ⟨[⟨none, "STOP"⟩], none⟩)).2.accumulated.finishReason = "stop") :=
  ⟨⟨rfl, rfl, rfl⟩, ⟨rfl, rfl, rfl⟩⟩

/-- Witness for C4 (amended): an Anthropic stream with an open tool-use
block flushes it on content_block_stop in block order, and a concrete
Gemini finish-reason chunk leaves the stream unexhausted. -/
theorem c4_amended_terminal_flush_witness :
    (Anthropic.stepEvent
        { accumulated := { toolCalls := [{ id := "t0", name := "g", arguments := "1" }] },
          currentToolID := "t1", currentToolName := "f", currentToolArgs := "42" }
        Anthropic.stopBlockEvent).2.accumulated.toolCalls
      = [{ id := "t0", name := "g", arguments := "1" }]
        ++ [{ id := "t1", name := "f", arguments := "42" }]
    ∧ ((Gemini.next Gemini.initState (.ok ⟨[⟨none, "MAX_TOKENS"⟩], none⟩)).1 = true
    ∧ (Gemini.next Gemini.initState (.ok ⟨[⟨none, "MAX_TOKENS"⟩], none⟩)).2.done
        = Gemini.initState.done) :=
  ⟨c4_amended_terminal_flush.2.2.1
    { accumulated := { toolCalls := [{ id := "t0", name := "g", arguments := "1" }] },
      currentToolID := "t1", currentToolName := "f", currentToolArgs := "42" }
    (by decide),
   c4_amended_terminal_flush.2.2.2 Gemini.initState ⟨[⟨none, "MAX_TOKENS"⟩], none⟩⟩

/-- Preservation of the chunk finish reason by the Gemini part fold: the
fold only writes delta, toolCallDelta, content and toolCalls. -/
theorem gemini_foldParts_finishReason (parts : List Gemini.Part) :
    ∀ (cur : StreamChunk) (r : Response),
      (parts.foldl Gemini.stepPart (cur, r)).1.finishReason = cur.finishReason := by
  induction parts with
  | nil => intro cur r; rfl
  | cons p rest ih =>
      intro cur r
      simp only [List.foldl_cons]
      rcases hsp : Gemini.stepPart (cur, r) p with ⟨cur1, r1⟩
      have hfr : cur1.finishReason = cur.finishReason := by
        unfold Gemini.stepPart at hsp
        dsimp only at hsp
        rcases hfc : p.functionCall with _ | fc <;> rw [hfc] at hsp <;>
          (cases hsp; split <;> rfl)
      exact (ih cur1 r1).trans hfr

/-- Totality of the nonempty range of the Gemini finish-reason mapping:
the conversion never returns the empty string, whatever the vendor sent
(the empty string included). -/
theorem gemini_convertFinishReason_ne_empty (r : String) :
    Gemini.convertFinishReason r ≠ "" := by
  unfold Gemini.convertFinishReason
  split_ifs <;> simp [finishReasonStop, finishReasonToolCalls, finishReasonLength]

/-- C7 (amended): the OpenAI normalizer surfaces a nonempty finish
reason only on a chunk whose vendor event carries a non-null
finish_reason, and the Anthropic normalizer only on a message_delta
event with a nonempty stop_reason; the Gemini normalizer however stamps
every candidate-bearing chunk with a finish reason, converting the
vendor field even when it is absent, in which case the chunk carries
stop (see the counterexample). -/
theorem c7_amended_finish_reason_only_on_terminal :
    (∀ (s : OpenAI.StreamState) (c : OpenAI.VendorChunk),
        (match c.choices with
         | [] => True
         | choice :: _ => choice.finishReason = none) →
        ((OpenAI.stepChunk s c).current.getD {}).finishReason = "")
  ∧ (∀ (s : Anthropic.StreamState) (e : Anthropic.Event),
        (e.type = "message_delta" → ∀ d, e.delta = some d → d.stopReason = "") →
        ((Anthropic.stepEvent s e).2.current.getD {}).finishReason = "")
  ∧ (∀ (s : Gemini.StreamState) (c : Gemini.VendorChunk) (cand : Gemini.Candidate)
        (rest : List Gemini.Candidate),
        c.candidates = cand :: rest →
        ((Gemini.stepChunk s c).current.getD {}).finishReason
          = Gemini.convertFinishReason cand.finishReason
        ∧ Gemini.convertFinishReason cand.finishReason ≠ "") := by
  refine ⟨?_, ?_, ?_⟩
  · intro s c hfr
    unfold OpenAI.stepChunk
    rcases hch : c.choices with _ | ⟨choice, rest⟩ <;> rw [hch] at hfr <;>
      cases hu : c.usage <;> dsimp only
    · simp
    · simp
    · rcases hfold : choice.delta.toolCalls.foldl OpenAI.applyToolCallDelta
          (s.toolCalls,
            if choice.delta.content ≠ "" then { delta := choice.delta.content }
            else ({} : StreamChunk)) with ⟨calls2, cur2⟩
      have hp := (openai_foldDeltas_preserves choice.delta.toolCalls s.toolCalls
          (if choice.delta.content ≠ "" then { delta := choice.delta.content }
           else ({} : StreamChunk))).2
      rw [hfold] at hp
      rw [hfr]
      dsimp only
      simp only [Option.getD_some]
      rw [hp]
      split <;> rfl
    · rcases hfold : choice.delta.toolCalls.foldl OpenAI.applyToolCallDelta
          (s.toolCalls,
            if choice.delta.content ≠ "" then { delta := choice.delta.content }
            else ({} : StreamChunk)) with ⟨calls2, cur2⟩
      have hp := (openai_foldDeltas_preserves choice.delta.toolCalls s.toolCalls
          (if choice.delta.content ≠ "" then { delta := choice.delta.content }
           else ({} : StreamChunk))).2
      rw [hfold] at hp
      rw [hfr]
      dsimp only
      simp only [Option.getD_some]
      rw [hp]
      split <;> rfl
  · intro s e hmd
    unfold Anthropic.stepEvent
    split_ifs with h1 h2 h3 h4 h5 h6
    · rcases e.contentBlock with _ | cb <;> dsimp only
      · rfl
      · split_ifs <;> rfl
    · rcases hd : e.delta with _ | d <;> dsimp only
      · rfl
      · by_cases ht : d.text ≠ "" <;> by_cases hf : d.argFragment ≠ "" <;>
          simp [ht, hf]
    · rfl
    · rfl
    · rcases hd : e.delta with _ | d <;> dsimp only
      · rcases e.usage with _ | u <;> rfl
      · have hsr : d.stopReason = "" := hmd (by assumption) d hd
        rw [if_neg (by simp [hsr])]
        rcases e.usage with _ | u <;> rfl
    · rcases e.message with _ | m <;> rfl
    · rfl
    · rfl
  · intro s c cand rest hcand
    refine ⟨?_, gemini_convertFinishReason_ne_empty cand.finishReason⟩
    unfold Gemini.stepChunk
    rw [hcand]
    cases hu : c.usageMetadata <;> dsimp only <;>
      rcases hct : cand.content with _ | ct <;> dsimp only
    · rfl
    · simp only [Option.getD_some]
      exact (gemini_foldParts_finishReason ct.parts _ _).trans rfl
    · rfl
    · simp only [Option.getD_some]
      exact (gemini_foldParts_finishReason ct.parts _ _).trans rfl

/-- Counterexample to C7 as stated: a Gemini text-only event without any
vendor finishReason (and not terminal, the stream continues) produces a
chunk whose FinishReason is stop, which is nonempty. -/
theorem c7_counterexample_gemini_finish_reason_on_text_chunk :
    ((Gemini.model.run Gemini.initState
        [.ok ⟨[⟨some ⟨[⟨"hi", none⟩]⟩, ""⟩], none⟩, .ok ⟨[⟨some ⟨[⟨"!", none⟩]⟩, ""⟩], none⟩,
         .error .eof]).2).map StreamChunk.finishReason = ["stop", "stop"]
    ∧ ("stop" : String) ≠ "" :=
  ⟨rfl, by decide⟩

/-- Witness for C7 (amended): an OpenAI text chunk with a null
finish_reason, an Anthropic text delta event, and a Gemini candidate
chunk evaluated through the theorem. -/
theorem c7_amended_finish_reason_only_on_terminal_witness :
    ((OpenAI.stepChunk {} ⟨[⟨⟨"hi", []⟩, none⟩], none⟩).current.getD {}).finishReason = ""
    ∧ ((Anthropic.stepEvent {} ⟨"content_block_delta", some ⟨"text_delta", "hi", "", ""⟩,
        none, none, none⟩).2.current.getD {}).finishReason = ""
    ∧ ((Gemini.stepChunk {} ⟨[⟨some ⟨[⟨"hi", none⟩]⟩, ""⟩], none⟩).current.getD {}).finishReason
        = Gemini.convertFinishReason ""
    ∧ Gemini.convertFinishReason "" ≠ "" := by
  refine ⟨?_, ?_, ?_, ?_⟩
  · exact c7_amended_finish_reason_only_on_terminal.1 {} ⟨[⟨⟨"hi", []⟩, none⟩], none⟩ (by simp)
  · exact c7_amended_finish_reason_only_on_terminal.2.1 {}
      ⟨"content_block_delta", some ⟨"text_delta", "hi", "", ""⟩, none, none, none⟩
      (by intro h; simp at h)
  · exact (c7_amended_finish_reason_only_on_terminal.2.2 {}
      ⟨[⟨some ⟨[⟨"hi", none⟩]⟩, ""⟩], none⟩ ⟨some ⟨[⟨"hi", none⟩]⟩, ""⟩ [] rfl).1
  · exact (c7_amended_finish_reason_only_on_terminal.2.2 {}
      ⟨[⟨some ⟨[⟨"hi", none⟩]⟩, ""⟩], none⟩ ⟨some ⟨[⟨"hi", none⟩]⟩, ""⟩ [] rfl).2

/-- Argument growth at the own key of one OpenAI tool-call fragment: the
stored arguments string is extended by exactly the fragment (also when
the fragment is empty, which appends nothing). -/
theorem openai_apply_args_self (calls : List (Int × ToolCall)) (cur : StreamChunk)
    (tc : OpenAI.StreamToolCall) :
    ((mapLookup (OpenAI.applyToolCallDelta (calls, cur) tc).1 tc.index).getD {}).arguments
      = ((mapLookup calls tc.index).getD {}).arguments ++ tc.function.arguments := by
  unfold OpenAI.applyToolCallDelta
  dsimp only
  split_ifs <;> simp_all [mapLookup_mapSet_self]

/-- Entry creation at the own key of one OpenAI tool-call fragment: the
loop body always stores an entry at the fragment index. -/
theorem openai_apply_isSome_self (calls : List (Int × ToolCall)) (cur : StreamChunk)
    (tc : OpenAI.StreamToolCall) :
    (mapLookup (OpenAI.applyToolCallDelta (calls, cur) tc).1 tc.index).isSome = true := by
  unfold OpenAI.applyToolCallDelta
  dsimp only
  split_ifs <;> simp [mapLookup_mapSet_self]

/-- Invariance of other keys under one OpenAI tool-call fragment. -/
theorem openai_apply_lookup_other (calls : List (Int × ToolCall)) (cur : StreamChunk)
    (tc : OpenAI.StreamToolCall) {i : Int} (h : tc.index ≠ i) :
    mapLookup (OpenAI.applyToolCallDelta (calls, cur) tc).1 i = mapLookup calls i := by
  unfold OpenAI.applyToolCallDelta
  dsimp only
  split_ifs <;> exact mapLookup_mapSet_other _ _ h

/-- Fragment accounting of the OpenAI tool-call loop over one chunk: per
index, the stored arguments grow by the concatenation of the fragments
carried for that index, in order, and an entry exists afterwards exactly
when one existed before or the chunk mentioned the index. -/
theorem openai_foldDeltas_args (l : List OpenAI.StreamToolCall) :
    ∀ (calls : List (Int × ToolCall)) (cur : StreamChunk) (i : Int),
      ((mapLookup (l.foldl OpenAI.applyToolCallDelta (calls, cur)).1 i).getD {}).arguments
        = ((mapLookup calls i).getD {}).arguments
          ++ String.join ((l.filter fun tc => tc.index == i).map fun tc => tc.function.arguments)
      ∧ (mapLookup (l.foldl OpenAI.applyToolCallDelta (calls, cur)).1 i).isSome
        = ((mapLookup calls i).isSome || l.any fun tc => tc.index == i) := by
  induction l with
  | nil =>
      intro calls cur i
      constructor
      · show _ = _ ++ String.join []
        rw [show String.join ([] : List String) = "" from rfl]
        simp
      · simp
  | cons tc rest ih =>
      intro calls cur i
      simp only [List.foldl_cons]
      rcases happly : OpenAI.applyToolCallDelta (calls, cur) tc with ⟨calls1, cur1⟩
      by_cases hidx : tc.index = i
      · subst hidx
        have h1 := openai_apply_args_self calls cur tc
        have h2 := openai_apply_isSome_self calls cur tc
        rw [happly] at h1 h2
        obtain ⟨ha, hb⟩ := ih calls1 cur1 tc.index
        constructor
        · rw [ha, h1]
          simp [List.filter_cons, string_join_cons, String.append_assoc]
        · rw [hb, h2]
          simp
      · have h1 := openai_apply_lookup_other calls cur tc hidx
        rw [happly] at h1
        obtain ⟨ha, hb⟩ := ih calls1 cur1 i
        have hne : (tc.index == i) = false := by simpa using hidx
        constructor
        · rw [ha, h1]
          simp [List.filter_cons, hne]
        · rw [hb, h1]
          simp [List.any_cons, hne]

/-- Distribution of String.join over list append. -/
theorem string_join_append (a b : List String) :
    String.join (a ++ b) = String.join a ++ String.join b := by
  apply String.ext
  simp [String.data_join, String.data_append]

/-- Fragment accounting of one parsed OpenAI chunk, per tool-call index:
only the first choice is read. -/
theorem openai_stepChunk_args (s : OpenAI.StreamState) (c : OpenAI.VendorChunk) (i : Int) :
    ((mapLookup (OpenAI.stepChunk s c).toolCalls i).getD {}).arguments
      = ((mapLookup s.toolCalls i).getD {}).arguments
        ++ String.join (match c.choices with
            | [] => []
            | choice :: _ =>
                (choice.delta.toolCalls.filter fun tc => tc.index == i).map
                  fun tc => tc.function.arguments)
    ∧ (mapLookup (OpenAI.stepChunk s c).toolCalls i).isSome
      = ((mapLookup s.toolCalls i).isSome
         || match c.choices with
            | [] => false
            | choice :: _ => choice.delta.toolCalls.any fun tc => tc.index == i) := by
  unfold OpenAI.stepChunk
  rcases hch : c.choices with _ | ⟨choice, rest⟩ <;> cases hu : c.usage <;> dsimp only
  · constructor
    · show _ = _ ++ String.join []
      rw [show String.join ([] : List String) = "" from rfl]
      simp
    · simp
  · constructor
    · show _ = _ ++ String.join []
      rw [show String.join ([] : List String) = "" from rfl]
      simp
    · simp
  · exact ⟨(openai_foldDeltas_args choice.delta.toolCalls s.toolCalls _ i).1,
      (openai_foldDeltas_args choice.delta.toolCalls s.toolCalls _ i).2⟩
  · exact ⟨(openai_foldDeltas_args choice.delta.toolCalls s.toolCalls _ i).1,
      (openai_foldDeltas_args choice.delta.toolCalls s.toolCalls _ i).2⟩

/-- Fragment accounting of a fold of parsed OpenAI chunks, per tool-call
index. -/
theorem openai_foldChunks_args (cs : List OpenAI.VendorChunk) :
    ∀ (s : OpenAI.StreamState) (i : Int),
      ((mapLookup (OpenAI.foldChunks s cs).toolCalls i).getD {}).arguments
        = ((mapLookup s.toolCalls i).getD {}).arguments
          ++ String.join (OpenAI.fragmentsFor i cs)
      ∧ (mapLookup (OpenAI.foldChunks s cs).toolCalls i).isSome
        = ((mapLookup s.toolCalls i).isSome || OpenAI.mentionsIdx i cs) := by
  induction cs with
  | nil =>
      intro s i
      constructor
      · show _ = _ ++ String.join (OpenAI.fragmentsFor i [])
        rw [show OpenAI.fragmentsFor i [] = [] from rfl,
          show String.join ([] : List String) = "" from rfl]
        simp [OpenAI.foldChunks]
      · simp [OpenAI.foldChunks, OpenAI.mentionsIdx]
  | cons c rest ih =>
      intro s i
      have hstep := openai_stepChunk_args s c i
      have htail := ih (OpenAI.stepChunk s c) i
      have hsplit : OpenAI.fragmentsFor i (c :: rest)
          = (match c.choices with
             | [] => []
             | choice :: _ =>
                 (choice.delta.toolCalls.filter fun tc => tc.index == i).map
                   fun tc => tc.function.arguments) ++ OpenAI.fragmentsFor i rest := by
        simp [OpenAI.fragmentsFor]
      have hment : OpenAI.mentionsIdx i (c :: rest)
          = ((match c.choices with
              | [] => false
              | choice :: _ => choice.delta.toolCalls.any fun tc => tc.index == i)
             || OpenAI.mentionsIdx i rest) := by
        simp [OpenAI.mentionsIdx]
      constructor
      · rw [show OpenAI.foldChunks s (c :: rest)
            = OpenAI.foldChunks (OpenAI.stepChunk s c) rest from rfl]
        rw [htail.1, hstep.1, hsplit, string_join_append, String.append_assoc]
      · rw [show OpenAI.foldChunks s (c :: rest)
            = OpenAI.foldChunks (OpenAI.stepChunk s c) rest from rfl]
        rw [htail.2, hstep.2, hment, Bool.or_assoc]

/-- Effect of one Anthropic argument-fragment event: the in-progress
arguments are extended by exactly the fragment (appended, never
replaced); block identity and flushed tool calls are untouched. -/
theorem anthropic_step_fragment (s : Anthropic.StreamState) (f : String) :
    (Anthropic.stepEvent s (Anthropic.fragmentEvent f)).2.currentToolArgs
        = s.currentToolArgs ++ f
    ∧ (Anthropic.stepEvent s (Anthropic.fragmentEvent f)).2.currentToolID = s.currentToolID
    ∧ (Anthropic.stepEvent s (Anthropic.fragmentEvent f)).2.currentToolName = s.currentToolName
    ∧ (Anthropic.stepEvent s (Anthropic.fragmentEvent f)).2.accumulated.toolCalls
        = s.accumulated.toolCalls := by
  unfold Anthropic.stepEvent Anthropic.fragmentEvent
  by_cases hf : f = "" <;> simp [hf]

/-- Effect of a run of Anthropic argument-fragment events: the
in-progress arguments grow by the concatenation of the fragments in
delivery order. -/
theorem anthropic_fold_fragments (frags : List String) :
    ∀ s : Anthropic.StreamState,
    (Anthropic.foldEvents s (frags.map Anthropic.fragmentEvent)).currentToolArgs
        = s.currentToolArgs ++ String.join frags
    ∧ (Anthropic.foldEvents s (frags.map Anthropic.fragmentEvent)).currentToolID
        = s.currentToolID
    ∧ (Anthropic.foldEvents s (frags.map Anthropic.fragmentEvent)).currentToolName
        = s.currentToolName
    ∧ (Anthropic.foldEvents s (frags.map Anthropic.fragmentEvent)).accumulated.toolCalls
        = s.accumulated.toolCalls := by
  induction frags with
  | nil =>
      intro s
      refine ⟨?_, rfl, rfl, rfl⟩
      rw [show String.join ([] : List String) = "" from rfl]
      simp [Anthropic.foldEvents]
  | cons f rest ih =>
      intro s
      have hstep := anthropic_step_fragment s f
      have htail := ih (Anthropic.stepEvent s (Anthropic.fragmentEvent f)).2
      rw [show Anthropic.foldEvents s ((f :: rest).map Anthropic.fragmentEvent)
          = Anthropic.foldEvents (Anthropic.stepEvent s (Anthropic.fragmentEvent f)).2
              (rest.map Anthropic.fragmentEvent) from rfl] at *
      refine ⟨?_, ?_, ?_, ?_⟩
      · rw [htail.1, hstep.1, string_join_cons, String.append_assoc]
      · rw [htail.2.1, hstep.2.1]
      · rw [htail.2.2.1, hstep.2.2.1]
      · rw [htail.2.2.2, hstep.2.2.2]

/-- Effect of an Anthropic tool_use block-start event: the in-progress
identity is loaded and the arguments reset. -/
theorem anthropic_step_start (s : Anthropic.StreamState) (id name : String) :
    Anthropic.stepEvent s (Anthropic.startToolEvent id name)
      = (true, { s with current := some {}, currentToolID := id,
                        currentToolName := name, currentToolArgs := "" }) := by
  simp [Anthropic.stepEvent, Anthropic.startToolEvent]

/-- Effect of an Anthropic block-stop event on an open tool-use block:
the assembled call is appended to the accumulated list and the
in-progress fields are cleared. -/
theorem anthropic_step_stop (s : Anthropic.StreamState) (h : s.currentToolID ≠ "") :
    Anthropic.stepEvent s Anthropic.stopBlockEvent
      = (true, { s with current := some {},
                        accumulated :=
                          { s.accumulated with
                              toolCalls := s.accumulated.toolCalls
                                ++ [{ id := s.currentToolID, name := s.currentToolName,
                                      arguments := s.currentToolArgs }] },
                        currentToolID := "", currentToolName := "",
                        currentToolArgs := "" }) := by
  simp [Anthropic.stepEvent, Anthropic.stopBlockEvent, h]

/-- Tool-call accounting of the Gemini part fold: every function-call
part is appended to the accumulated list as a complete tool call, in
part order; there is no fragment-keyed in-progress entry. -/
theorem gemini_foldParts_toolCalls (parts : List Gemini.Part) :
    ∀ (cur : StreamChunk) (r : Response),
    (parts.foldl Gemini.stepPart (cur, r)).2.toolCalls
      = r.toolCalls ++ parts.filterMap (fun p =>
          match p.functionCall with
          | some fc => some { id := fc.name, name := fc.name, arguments := fc.argsJSON }
          | none => none) := by
  induction parts with
  | nil => intro cur r; simp
  | cons p rest ih =>
      intro cur r
      simp only [List.foldl_cons]
      rcases hsp : Gemini.stepPart (cur, r) p with ⟨cur1, r1⟩
      have hr1 : r1.toolCalls
          = r.toolCalls ++ (match p.functionCall with
              | some fc =>
                  [({ id := fc.name, name := fc.name, arguments := fc.argsJSON } : ToolCall)]
              | none => []) := by
        unfold Gemini.stepPart at hsp
        dsimp only at hsp
        rcases hfc : p.functionCall with _ | fc <;> rw [hfc] at hsp <;>
          (cases hsp; split <;> simp)
      rw [ih cur1 r1, hr1]
      rcases hfc : p.functionCall with _ | fc <;>
        simp [hfc, List.filterMap_cons]

/-- Tool-call accounting of one parsed Gemini chunk: the accumulated
list grows by exactly the complete calls carried by the chunk. -/
theorem gemini_stepChunk_partCalls (s : Gemini.StreamState) (c : Gemini.VendorChunk) :
    (Gemini.stepChunk s c).accumulated.toolCalls
      = s.accumulated.toolCalls ++ Gemini.partCalls c := by
  unfold Gemini.stepChunk Gemini.partCalls
  rcases hcand : c.candidates with _ | ⟨cand, rest⟩ <;> cases hu : c.usageMetadata <;> dsimp only
  · simp
  · simp
  · rcases hct : cand.content with _ | ct <;> dsimp only
    · simp
    · rw [gemini_foldParts_toolCalls]
  · rcases hct : cand.content with _ | ct <;> dsimp only
    · simp
    · rw [gemini_foldParts_toolCalls]

/-- C2 (amended): in the OpenAI normalizer (Framing A) the in-progress
tool call is keyed by the per-chunk vendor index, the entry is created
on first sight, and each argument fragment is appended, never replaced,
so the assembled Arguments string equals the concatenation of the
fragments in delivery order; in the Anthropic normalizer (Framing C) a
tool-use block assembled from a block start, fragment deltas and the
block stop yields one tool call whose Arguments equal the concatenation
of the partial_json fragments in delivery order.  The Gemini normalizer
(Framing B) keeps no fragment-keyed in-progress entries: every
function-call part arrives whole and is appended immediately as its own
complete tool call (so a call split across chunks would become separate
calls, see the counterexample; for the single-chunk case the Arguments
trivially equal the one fragment).  Equality of the assembled string
with the vendor original makes parsing both as JSON trivially agree. -/
theorem c2_fragment_concatenation :
    (∀ (cs : List OpenAI.VendorChunk) (i : Int),
        ((mapLookup (OpenAI.foldChunks OpenAI.initState cs).toolCalls i).getD {}).arguments
          = String.join (OpenAI.fragmentsFor i cs)
      ∧ (mapLookup (OpenAI.foldChunks OpenAI.initState cs).toolCalls i).isSome
          = OpenAI.mentionsIdx i cs)
  ∧ (∀ (s : Anthropic.StreamState) (id name : String) (frags : List String),
        id ≠ "" →
        (Anthropic.foldEvents s
            (Anthropic.startToolEvent id name
              :: (frags.map Anthropic.fragmentEvent
                  ++ [Anthropic.stopBlockEvent]))).accumulated.toolCalls
          = s.accumulated.toolCalls
            ++ [{ id := id, name := name, arguments := String.join frags }])
  ∧ (∀ (s : Gemini.StreamState) (c : Gemini.VendorChunk),
        (Gemini.stepChunk s c).accumulated.toolCalls
          = s.accumulated.toolCalls ++ Gemini.partCalls c) := by
  refine ⟨?_, ?_, ?_⟩
  · intro cs i
    have h := openai_foldChunks_args cs OpenAI.initState i
    constructor
    · have h1 := h.1
      rw [show ((mapLookup OpenAI.initState.toolCalls i).getD {}).arguments = "" from rfl]
        at h1
      rw [h1, String.empty_append]
    · have h2 := h.2
      rw [show (mapLookup OpenAI.initState.toolCalls i).isSome = false from rfl] at h2
      rw [h2, Bool.false_or]
  · intro s id name frags hid
    have hsplit : Anthropic.foldEvents s
        (Anthropic.startToolEvent id name
          :: (frags.map Anthropic.fragmentEvent ++ [Anthropic.stopBlockEvent]))
        = (Anthropic.stepEvent
            (Anthropic.foldEvents (Anthropic.stepEvent s (Anthropic.startToolEvent id name)).2
              (frags.map Anthropic.fragmentEvent))
            Anthropic.stopBlockEvent).2 := by
      simp [Anthropic.foldEvents, List.foldl_append]
    rw [hsplit]
    have hfold := anthropic_fold_fragments frags
      (Anthropic.stepEvent s (Anthropic.startToolEvent id name)).2
    have hID2 : (Anthropic.foldEvents
        (Anthropic.stepEvent s (Anthropic.startToolEvent id name)).2
        (frags.map Anthropic.fragmentEvent)).currentToolID = id := by
      rw [hfold.2.1, anthropic_step_start]
    have hstop := anthropic_step_stop
      (Anthropic.foldEvents (Anthropic.stepEvent s (Anthropic.startToolEvent id name)).2
        (frags.map Anthropic.fragmentEvent))
      (by rw [hID2]; exact hid)
    rw [hstop]
    dsimp only
    rw [hfold.1, hID2, hfold.2.2.1, hfold.2.2.2, anthropic_step_start]
    dsimp only
    simp
  · intro s c
    exact gemini_stepChunk_partCalls s c

/-- Counterexample to C2 as stated: the claim asserts that in any
framing a tool call whose argument fragments arrive split across chunks
is accumulated into one call, keyed by the per-chunk index for Framings
A and B; the Gemini normalizer keeps no such in-progress entry, so two
function-call chunks carrying the argument halves "4" and "2" for the
same function produce two separate accumulated tool calls instead of a
single call with arguments "42". -/
theorem c2_counterexample_gemini_fragments_not_assembled :
    (Gemini.model.run Gemini.initState
        [.ok ⟨[⟨some ⟨[⟨"", some ⟨"f", "4"⟩⟩]⟩, ""⟩], none⟩,
         .ok ⟨[⟨some ⟨[⟨"", some ⟨"f", "2"⟩⟩]⟩, ""⟩], none⟩,
         .error .eof]).1.accumulated.toolCalls
      = [{ id := "f", name := "f", arguments := "4" },
         { id := "f", name := "f", arguments := "2" }]
    ∧ ([{ id := "f", name := "f", arguments := "4" },
        { id := "f", name := "f", arguments := "2" }] : List ToolCall)
      ≠ [{ id := "f", name := "f", arguments := "42" }] :=
  ⟨rfl, by decide⟩

/-- Witness for C2 (amended): a concrete OpenAI stream fragments one
call in two chunks at index 0, a concrete Anthropic block start, two
fragments and block stop assemble one call with the concatenated
arguments, and a concrete Gemini chunk appends its complete call. -/
theorem c2_fragment_concatenation_witness :
    (((mapLookup (OpenAI.foldChunks OpenAI.initState
        [⟨[⟨⟨"", [⟨0, "c1", ⟨"f", "4"⟩⟩]⟩, none⟩], none⟩,
         ⟨[⟨⟨"", [⟨0, "", ⟨"", "2"⟩⟩]⟩, none⟩], none⟩]).toolCalls 0).getD {}).arguments
      = String.join (OpenAI.fragmentsFor 0
          [⟨[⟨⟨"", [⟨0, "c1", ⟨"f", "4"⟩⟩]⟩, none⟩], none⟩,
           ⟨[⟨⟨"", [⟨0, "", ⟨"", "2"⟩⟩]⟩, none⟩], none⟩]))
    ∧ (Anthropic.foldEvents Anthropic.initState
        (Anthropic.startToolEvent "t1" "f"
          :: (["4", "2"].map Anthropic.fragmentEvent
              ++ [Anthropic.stopBlockEvent]))).accumulated.toolCalls
      = Anthropic.initState.accumulated.toolCalls
        ++ [{ id := "t1", name := "f", arguments := String.join ["4", "2"] }]
    ∧ (Gemini.stepChunk Gemini.initState
        ⟨[⟨some ⟨[⟨"", some ⟨"f", "42"⟩⟩]⟩, ""⟩], none⟩).accumulated.toolCalls
      = Gemini.initState.accumulated.toolCalls
        ++ Gemini.partCalls ⟨[⟨some ⟨[⟨"", some ⟨"f", "42"⟩⟩]⟩, ""⟩], none⟩ :=
  ⟨(c2_fragment_concatenation.1
      [⟨[⟨⟨"", [⟨0, "c1", ⟨"f", "4"⟩⟩]⟩, none⟩], none⟩,
       ⟨[⟨⟨"", [⟨0, "", ⟨"", "2"⟩⟩]⟩, none⟩], none⟩] 0).1,
   c2_fragment_concatenation.2.1 Anthropic.initState "t1" "f" ["4", "2"] (by decide),
   c2_fragment_concatenation.2.2 Gemini.initState
     ⟨[⟨some ⟨[⟨"", some ⟨"f", "42"⟩⟩]⟩, ""⟩], none⟩⟩

/-- Positivity of the size of any JSON value. -/
theorem json_sizeOf_pos (j : Schema.Json) : 0 < sizeOf j := by
  cases j <;> simp <;> omega

/-- Size bound for a value stored in an association list. -/
theorem sizeOf_snd_mem : ∀ {l : List (String × Schema.Json)} {k : String} {v : Schema.Json},
    (k, v) ∈ l → sizeOf v < sizeOf l := by
  intro l
  induction l with
  | nil => intro k v h; cases h
  | cons hd tl ih =>
      intro k v h
      rcases List.mem_cons.mp h with h | h
      · obtain ⟨j, w⟩ := hd
        cases h
        simp
        omega
      · have := ih h
        obtain ⟨j, w⟩ := hd
        simp
        omega

/-- Key preservation of the property transformation loop. -/
theorem keys_transformProps : ∀ l : List (String × Schema.Json),
    (Schema.transformProps l).map Prod.fst = l.map Prod.fst := by
  intro l
  induction l with
  | nil => rw [Schema.transformProps]
  | cons kv rest ih =>
      obtain ⟨k, v⟩ := kv
      rw [Schema.transformProps]
      simp [ih]

/-- Reflexivity of the string-array comparison against its own key list. -/
theorem strListEq_refl_map : ∀ ks : List String,
    Schema.strListEq (ks.map Schema.Json.str) ks = true := by
  intro ks
  induction ks with
  | nil => rfl
  | cons k rest ih =>
      rw [List.map_cons, Schema.strListEq]
      simp [ih]

/-- Shape of the recursive transform on an object: the result is an
object whose fields agree with the input outside the required and
properties keys. -/
theorem mrr_shape (fields : List (String × Schema.Json)) :
    ∃ gf, Schema.makeRequiredRecursive (.obj fields) = .obj gf
      ∧ ∀ k, k ≠ "required" → k ≠ "properties" → mapLookup gf k = mapLookup fields k := by
  rw [Schema.makeRequiredRecursive]
  cases hprop : mapLookup fields "properties" with
  | none => exact ⟨fields, rfl, fun k _ _ => rfl⟩
  | some p =>
      cases p with
      | obj props =>
          refine ⟨_, rfl, ?_⟩
          intro k hk1 hk2
          rw [mapLookup_mapSet_other _ _ (fun h => hk2 h.symm),
            mapLookup_mapSet_other _ _ (fun h => hk1 h.symm)]
      | null => exact ⟨fields, rfl, fun k _ _ => rfl⟩
      | bool b => exact ⟨fields, rfl, fun k _ _ => rfl⟩
      | num n => exact ⟨fields, rfl, fun k _ _ => rfl⟩
      | str s => exact ⟨fields, rfl, fun k _ _ => rfl⟩
      | arr xs => exact ⟨fields, rfl, fun k _ _ => rfl⟩

/-- Invariance of the checker under replacing the items entry of an
object: the checker reads only required, properties and the property
values at this level. -/
theorem reqOK_set_items (gf : List (String × Schema.Json)) (x : Schema.Json) :
    Schema.reqOK (.obj (mapSet gf "items" x)) = Schema.reqOK (.obj gf) := by
  rw [Schema.reqOK, Schema.reqOK]
  rw [mapLookup_mapSet_other _ _ (by decide : ("items" : String) ≠ "properties")]
  cases hprop : mapLookup gf "properties" with
  | none => rfl
  | some p =>
      cases p <;> try rfl
      rw [mapLookup_mapSet_other _ _ (by decide : ("items" : String) ≠ "required")]

/-- Reduction of the checker conjunction over transformed properties to
the per-property checks. -/
theorem propsOK_transformProps : ∀ l : List (String × Schema.Json),
    (∀ kv ∈ l, Schema.propOK (Schema.transformProp kv.2) = true) →
    Schema.propsOK (Schema.transformProps l) = true := by
  intro l
  induction l with
  | nil =>
      intro _
      rw [Schema.transformProps, Schema.propsOK]
  | cons kv rest ih =>
      intro h
      obtain ⟨k, v⟩ := kv
      rw [Schema.transformProps, Schema.propsOK]
      rw [h (k, v) (List.mem_cons_self _ _), ih (fun kv hm => h kv (List.mem_cons_of_mem _ hm))]
      rfl

/-- Invariance of the type test under replacing the items entry. -/
theorem isTypeObject_set_items (gf : List (String × Schema.Json)) (x : Schema.Json) :
    Schema.isTypeObject (mapSet gf "items" x) = Schema.isTypeObject gf := by
  unfold Schema.isTypeObject
  rw [mapLookup_mapSet_other _ _ (by decide : ("items" : String) ≠ "type")]

/-- Congruence of the type test under equal type entries. -/
theorem isTypeObject_congr {gf pf : List (String × Schema.Json)}
    (h : mapLookup gf "type" = mapLookup pf "type") :
    Schema.isTypeObject gf = Schema.isTypeObject pf := by
  unfold Schema.isTypeObject
  rw [h]

/-- Assembly of the per-property check from its two constituents: the
descent into the object itself (when its type is object) and into its
items (when that is an object of type object). -/
theorem propOK_of_parts (gf : List (String × Schema.Json))
    (hty : Schema.isTypeObject gf = true → Schema.reqOK (.obj gf) = true)
    (hit : ∀ itf, mapLookup gf "items" = some (.obj itf) →
        Schema.isTypeObject itf = true → Schema.reqOK (.obj itf) = true) :
    Schema.propOK (.obj gf) = true := by
  rw [Schema.propOK]
  rw [Bool.and_eq_true]
  constructor
  · cases hto : Schema.isTypeObject gf with
    | false => rw [if_neg (by simp [hto])]
    | true => rw [if_pos (by simp [hto])]; exact hty hto
  · cases hitems : mapLookup gf "items" with
    | none => rfl
    | some it =>
        cases it with
        | obj itf =>
            cases hto : Schema.isTypeObject itf with
            | false => simp [hto]
            | true => simp [hto, hit itf hitems hto]
        | null => rfl
        | bool b => rfl
        | num n => rfl
        | str s => rfl
        | arr xs => rfl

/-- Main induction for C5: by strong induction on size, the transform
establishes the checker at every node it visits, jointly with the
per-property form. -/
theorem schema_mrr_reqOK_aux : ∀ (n : Nat) (j : Schema.Json), sizeOf j ≤ n →
    Schema.reqOK (Schema.makeRequiredRecursive j) = true
    ∧ Schema.propOK (Schema.transformProp j) = true := by
  intro n
  induction n with
  | zero =>
      intro j h
      have := json_sizeOf_pos j
      omega
  | succ n ih =>
      intro j hle
      have hP : Schema.reqOK (Schema.makeRequiredRecursive j) = true := by
        cases j with
        | null => simp [Schema.makeRequiredRecursive, Schema.reqOK]
        | bool b => simp [Schema.makeRequiredRecursive, Schema.reqOK]
        | num m => simp [Schema.makeRequiredRecursive, Schema.reqOK]
        | str s => simp [Schema.makeRequiredRecursive, Schema.reqOK]
        | arr xs => simp [Schema.makeRequiredRecursive, Schema.reqOK]
        | obj fields =>
            rw [Schema.makeRequiredRecursive]
            cases hprop : mapLookup fields "properties" with
            | none => rw [Schema.reqOK, hprop]
            | some p =>
                cases p with
                | null => rw [Schema.reqOK, hprop]
                | bool b => rw [Schema.reqOK, hprop]
                | num m => rw [Schema.reqOK, hprop]
                | str s => rw [Schema.reqOK, hprop]
                | arr xs => rw [Schema.reqOK, hprop]
                | obj props =>
                    have hszp : sizeOf (Schema.Json.obj props) < sizeOf fields :=
                      mapLookup_sizeOf hprop
                    rw [Schema.reqOK]
                    rw [mapLookup_mapSet_self]
                    dsimp only
                    rw [mapLookup_mapSet_other _ _
                        (by decide : ("properties" : String) ≠ "required"),
                      mapLookup_mapSet_self]
                    dsimp only
                    rw [Bool.and_eq_true]
                    constructor
                    · rw [Schema.keysArr, Schema.strArrEqList, keys_transformProps]
                      rw [show (props.map fun kv => Schema.Json.str kv.1)
                          = (props.map Prod.fst).map Schema.Json.str from by
                            rw [List.map_map]
                            rfl]
                      exact strListEq_refl_map (props.map Prod.fst)
                    · apply propsOK_transformProps
                      intro kv hkv
                      have hszv : sizeOf kv.2 < sizeOf props := by
                        have hm : (kv.1, kv.2) ∈ props := by simpa using hkv
                        exact sizeOf_snd_mem hm
                      have hlev : sizeOf kv.2 ≤ n := by
                        simp at hle hszp
                        omega
                      exact (ih kv.2 hlev).2
      refine ⟨hP, ?_⟩
      cases j with
      | null => simp [Schema.transformProp, Schema.propOK]
      | bool b => simp [Schema.transformProp, Schema.propOK]
      | num m => simp [Schema.transformProp, Schema.propOK]
      | str s => simp [Schema.transformProp, Schema.propOK]
      | arr xs => simp [Schema.transformProp, Schema.propOK]
      | obj pf =>
          obtain ⟨qf, hq, hqk⟩ := mrr_shape pf
          have hreqq : Schema.reqOK (Schema.Json.obj qf) = true := by
            rw [← hq]
            exact hP
          have hqtype : Schema.isTypeObject qf = Schema.isTypeObject pf :=
            isTypeObject_congr (hqk "type" (by decide) (by decide))
          have hqitems : mapLookup qf "items" = mapLookup pf "items" :=
            hqk "items" (by decide) (by decide)
          have hsfpf : sizeOf pf ≤ n := by
            simp at hle
            omega
          rw [Schema.transformProp]
          cases hto : Schema.isTypeObject pf with
          | true =>
              rw [if_pos (by simp [hto]), hq]
              cases hitems : mapLookup pf "items" with
              | none =>
                  apply propOK_of_parts qf
                  · intro _
                    exact hreqq
                  · intro itf2 hitf2 hto2
                    rw [hqitems, hitems] at hitf2
                    cases hitf2
              | some it =>
                  cases it with
                    | null =>
                        apply propOK_of_parts qf
                        · intro _
                          exact hreqq
                        · intro itf2 hitf2 hto2
                          rw [hqitems, hitems] at hitf2
                          cases hitf2
                    | bool b2 =>
                        apply propOK_of_parts qf
                        · intro _
                          exact hreqq
                        · intro itf2 hitf2 hto2
                          rw [hqitems, hitems] at hitf2
                          cases hitf2
                    | num m2 =>
                        apply propOK_of_parts qf
                        · intro _
                          exact hreqq
                        · intro itf2 hitf2 hto2
                          rw [hqitems, hitems] at hitf2
                          cases hitf2
                    | str s2 =>
                        apply propOK_of_parts qf
                        · intro _
                          exact hreqq
                        · intro itf2 hitf2 hto2
                          rw [hqitems, hitems] at hitf2
                          cases hitf2
                    | arr xs2 =>
                        apply propOK_of_parts qf
                        · intro _
                          exact hreqq
                        · intro itf2 hitf2 hto2
                          rw [hqitems, hitems] at hitf2
                          cases hitf2
                    | obj itf =>
                        have hszit : sizeOf (Schema.Json.obj itf) < sizeOf pf :=
                          mapLookup_sizeOf hitems
                        have hitn : sizeOf (Schema.Json.obj itf) ≤ n := by omega
                        have hreqit :
                            Schema.reqOK (Schema.makeRequiredRecursive (.obj itf)) = true :=
                          (ih _ hitn).1
                        obtain ⟨xg, hx, hxk⟩ := mrr_shape itf
                        cases hito : Schema.isTypeObject itf with
                        | false =>
                            dsimp only
                            rw [if_neg (by simp [hito])]
                            apply propOK_of_parts qf
                            · intro _
                              exact hreqq
                            · intro itf2 hitf2 hto2
                              rw [hqitems, hitems] at hitf2
                              cases hitf2
                              rw [hito] at hto2
                              cases hto2
                        | true =>
                            dsimp only
                            rw [if_pos (by simp [hito])]
                            apply propOK_of_parts
                            · intro hty2
                              rw [reqOK_set_items]
                              exact hreqq
                            · intro itf2 hitf2 hto2
                              rw [mapLookup_mapSet_self, hx] at hitf2
                              cases hitf2
                              rw [← hx]
                              exact hreqit
          | false =>
              rw [if_neg (by simp [hto])]
              cases hitems : mapLookup pf "items" with
              | none =>
                  apply propOK_of_parts pf
                  · intro h2
                    rw [hto] at h2
                    cases h2
                  · intro itf2 hitf2 hto2
                    rw [hitems] at hitf2
                    cases hitf2
              | some it =>
                  cases it with
                    | null =>
                        apply propOK_of_parts pf
                        · intro h2
                          rw [hto] at h2
                          cases h2
                        · intro itf2 hitf2 hto2
                          rw [hitems] at hitf2
                          cases hitf2
                    | bool b2 =>
                        apply propOK_of_parts pf
                        · intro h2
                          rw [hto] at h2
                          cases h2
                        · intro itf2 hitf2 hto2
                          rw [hitems] at hitf2
                          cases hitf2
                    | num m2 =>
                        apply propOK_of_parts pf
                        · intro h2
                          rw [hto] at h2
                          cases h2
                        · intro itf2 hitf2 hto2
                          rw [hitems] at hitf2
                          cases hitf2
                    | str s2 =>
                        apply propOK_of_parts pf
                        · intro h2
                          rw [hto] at h2
                          cases h2
                        · intro itf2 hitf2 hto2
                          rw [hitems] at hitf2
                          cases hitf2
                    | arr xs2 =>
                        apply propOK_of_parts pf
                        · intro h2
                          rw [hto] at h2
                          cases h2
                        · intro itf2 hitf2 hto2
                          rw [hitems] at hitf2
                          cases hitf2
                    | obj itf =>
                        have hszit : sizeOf (Schema.Json.obj itf) < sizeOf pf :=
                          mapLookup_sizeOf hitems
                        have hitn : sizeOf (Schema.Json.obj itf) ≤ n := by omega
                        have hreqit :
                            Schema.reqOK (Schema.makeRequiredRecursive (.obj itf)) = true :=
                          (ih _ hitn).1
                        obtain ⟨xg, hx, hxk⟩ := mrr_shape itf
                        cases hito : Schema.isTypeObject itf with
                        | false =>
                            dsimp only
                            rw [if_neg (by simp [hito])]
                            apply propOK_of_parts pf
                            · intro h2
                              rw [hto] at h2
                              cases h2
                            · intro itf2 hitf2 hto2
                              rw [hitems] at hitf2
                              cases hitf2
                              rw [hito] at hto2
                              cases hto2
                        | true =>
                            dsimp only
                            rw [if_pos (by simp [hito])]
                            apply propOK_of_parts
                            · intro hty2
                              rw [isTypeObject_set_items, hto] at hty2
                              cases hty2
                            · intro itf2 hitf2 hto2
                              rw [mapLookup_mapSet_self, hx] at hitf2
                              cases hitf2
                              rw [← hx]
                              exact hreqit

/-- C5: the makeAllPropertiesRequired transform yields a schema that
passes the checker everywhere the transform descends: at any object with
a properties map, the required array becomes exactly the property key
list, recursively for every property of type object and for every
object-typed items of an array property; moreover at the top level the
required entry and the rewritten properties are exhibited explicitly. -/
theorem c5_make_all_properties_required :
    (∀ j : Schema.Json, Schema.reqOK (Schema.makeAllPropertiesRequired j) = true)
  ∧ (∀ (fields props : List (String × Schema.Json)),
        mapLookup fields "properties" = some (.obj props) →
        ∃ gf, Schema.makeAllPropertiesRequired (.obj fields) = .obj gf
          ∧ mapLookup gf "required" = some (Schema.keysArr props)
          ∧ mapLookup gf "properties" = some (.obj (Schema.transformProps props))) := by
  constructor
  · intro j
    cases j with
    | obj fields => exact (schema_mrr_reqOK_aux (sizeOf (Schema.Json.obj fields)) _ le_rfl).1
    | null => simp [Schema.makeAllPropertiesRequired, Schema.reqOK]
    | bool b => simp [Schema.makeAllPropertiesRequired, Schema.reqOK]
    | num m => simp [Schema.makeAllPropertiesRequired, Schema.reqOK]
    | str s => simp [Schema.makeAllPropertiesRequired, Schema.reqOK]
    | arr xs => simp [Schema.makeAllPropertiesRequired, Schema.reqOK]
  · intro fields props hprop
    refine ⟨mapSet (mapSet fields "required" (Schema.keysArr props)) "properties"
        (Schema.Json.obj (Schema.transformProps props)), ?_, ?_, ?_⟩
    · show Schema.makeRequiredRecursive (.obj fields) = _
      rw [Schema.makeRequiredRecursive, hprop]
    · rw [mapLookup_mapSet_other _ _ (by decide : ("properties" : String) ≠ "required"),
        mapLookup_mapSet_self]
    · rw [mapLookup_mapSet_self]

/-- Witness for C5: the schema object with properties a and b and
required only a is transformed into one whose required array is exactly
the key list a, b. -/
theorem c5_make_all_properties_required_witness :
    ∃ gf, Schema.makeAllPropertiesRequired
        (.obj [("type", .str "object"),
               ("properties", .obj [("a", .str "x"), ("b", .num 1)]),
               ("required", .arr [.str "a"])]) = .obj gf
      ∧ mapLookup gf "required"
          = some (Schema.keysArr [("a", .str "x"), ("b", .num 1)])
      ∧ mapLookup gf "properties"
          = some (.obj (Schema.transformProps [("a", .str "x"), ("b", .num 1)])) :=
  c5_make_all_properties_required.2
    [("type", .str "object"),
     ("properties", .obj [("a", .str "x"), ("b", .num 1)]),
     ("required", .arr [.str "a"])]
    [("a", .str "x"), ("b", .num 1)] rfl
